import Mathlib

/-!
# candy: document composition engine

A shallow embedding of `src/candy.go` (metadata directives, template chain
resolution, section resolution) together with theorems about it.

Go strings and byte slices are sequences of bytes; they are embedded as
`List Nat`.  Every delimiter the program looks for (`<!--!`, `-->`, the
whitespace class of `\s`, the trim set, `{`, `}`, `#`) is ASCII, so all
operations act bytewise.
-/

namespace Candy

/-- A Go `string` / `[]byte`: a sequence of bytes. -/
abbrev Bytes := List Nat

/-- The bytes of an ASCII string literal. -/
def bytes (s : String) : Bytes := s.toList.map Char.toNat

/-! ## Library functions used by the program -/

/-- Go `strings.HasPrefix`. -/
def hasPrefix (s pre : Bytes) : Bool := pre.isPrefixOf s

/-- Go `strings.HasSuffix`. -/
def hasSuffix (s suf : Bytes) : Bool := suf.isSuffixOf s

/-- Position-free form of `strings.Index`: cut `s` at the first occurrence
of `sep`, giving what precedes it and what follows it. -/
def cut (sep : Bytes) : Bytes → Option (Bytes × Bytes)
  | [] => if sep = [] then some ([], []) else none
  | c :: s =>
    if sep.isPrefixOf (c :: s) then some ([], (c :: s).drop sep.length)
    else match cut sep s with
      | some (a, b) => some (c :: a, b)
      | none => none

/-- Go `strings.SplitN(s, sep, 2)` for a non-empty separator. -/
def splitN2 (s sep : Bytes) : List Bytes :=
  match cut sep s with
  | some (a, b) => [a, b]
  | none => [s]

/-- The cutset `" \r\n\t"` handed to `strings.Trim` and `strings.TrimLeft`. -/
def cutset : Bytes := bytes " \r\n\t"

/-- Go `strings.TrimLeft(s, cutset)`. -/
def trimLeft (s : Bytes) : Bytes := s.dropWhile (fun c => decide (c ∈ cutset))

/-- Go `strings.TrimRight(s, cutset)`. -/
def trimRight (s : Bytes) : Bytes := (trimLeft s.reverse).reverse

/-- Go `strings.Trim(s, cutset)`. -/
def trim (s : Bytes) : Bytes := trimRight (trimLeft s)

/-- The character class `\s` of Go regular expressions: `[\t\n\f\r ]`. -/
def isSpace (c : Nat) : Bool := c = 9 || c = 10 || c = 12 || c = 13 || c = 32

/-- The regular expression `spaceRe = \s+` used by `Split(s, 2)`: the text
before the first run of whitespace and the text after that run; the text
itself when it has no whitespace. -/
def spaceReSplit2 (s : Bytes) : List Bytes :=
  match s.dropWhile (fun c => !isSpace c) with
  | [] => [s]
  | r => [s.takeWhile (fun c => !isSpace c), r.dropWhile isSpace]

/-- Worker of `spaceReSplitAll`; `inRun` tells that the previous byte was
whitespace, so that a run of whitespace separates only once. -/
def spaceReSplitAux : Bool → Bytes → List Bytes
  | _, [] => [[]]
  | inRun, c :: s =>
    if isSpace c then
      if inRun then spaceReSplitAux true s else [] :: spaceReSplitAux true s
    else match spaceReSplitAux false s with
      | p :: ps => (c :: p) :: ps
      | [] => [[c]]

/-- The call `spaceRe.Split(s, -1)`: the pieces of `s` between the runs of
whitespace, empty leading and trailing pieces included. -/
def spaceReSplitAll (s : Bytes) : List Bytes := spaceReSplitAux false s

/-- Worker of `replaceAll`; `skip` counts the bytes of a replaced occurrence
still to be passed over. -/
def replaceAux (old new : Bytes) : Nat → Bytes → Bytes
  | _, [] => []
  | k + 1, _ :: s => replaceAux old new k s
  | 0, c :: s =>
    if old.isPrefixOf (c :: s) then new ++ replaceAux old new (old.length - 1) s
    else c :: replaceAux old new 0 s

/-- Go `strings.Replace(s, old, new, -1)` for a non-empty `old`: the
non-overlapping occurrences of `old`, found left to right, become `new`. -/
def replaceAll (s old new : Bytes) : Bytes := replaceAux old new 0 s

/-- The complete lines that the loop over `bufio.Reader.ReadBytes('\n')`
visits: every line ends with its newline, and a last piece without a newline
comes with `io.EOF` and ends the loop unvisited. -/
def readLines : Bytes → List Bytes
  | [] => []
  | c :: s =>
    if c = 10 then [10] :: readLines s
    else match readLines s with
      | l :: ls => (c :: l) :: ls
      | [] => []

/-- Split a path at its `/` separators. -/
def pathElems : Bytes → List Bytes
  | [] => [[]]
  | c :: s =>
    if c = 47 then [] :: pathElems s
    else match pathElems s with
      | p :: ps => (c :: p) :: ps
      | [] => [[c]]

/-- The elements kept by `filepath.Clean`, innermost first: empty and `.`
elements vanish, `..` removes the element before it, and where there is none
`..` stays in a relative path and vanishes in a rooted one. -/
def cleanElems (rooted : Bool) : List Bytes → List Bytes → List Bytes
  | out, [] => out
  | out, e :: es =>
    if e = [] ∨ e = bytes "." then cleanElems rooted out es
    else if e = bytes ".." then
      match out with
      | o :: os =>
        if o = bytes ".." then cleanElems rooted (e :: out) es
        else cleanElems rooted os es
      | [] => if rooted then cleanElems rooted [] es else cleanElems rooted [e] es
    else cleanElems rooted (e :: out) es

/-- Go `filepath.Clean` on a system whose separator is `/`. -/
def filepathClean (path : Bytes) : Bytes :=
  let rooted := hasPrefix path (bytes "/")
  let out := (cleanElems rooted [] (pathElems path)).reverse
  if rooted then 47 :: List.intercalate [47] out
  else if out = [] then bytes "." else List.intercalate [47] out

/-- Go `filepath.Join(dir, name)` for a non-empty `dir`. -/
def filepathJoin (dir name : Bytes) : Bytes := filepathClean (dir ++ 47 :: name)

/-! ## The program -/

/-- A Go `error` value. -/
abbrev Error := String

/-- What a call yields: a value, a Go error, or `timeout` when the fuel that
bounds the loops and the nested calls of the embedding ran out before the
call returned.  A call that changes the context returns the new context with
its value; after an error the context is dropped, as every caller in the
program returns the error at once and `renderDocument` discards the context. -/
inductive Outcome (α : Type) where
  | ok (a : α)
  | error (e : Error)
  | timeout

def PageDir : Bytes := bytes "pages"
def TempalteDir : Bytes := bytes "templates"
def SectionDir : Bytes := bytes "sections"

/-- The `Context` of one render: the template stack, the variables (`Dict`;
every value stored is a string) and the sections.  A Go map is embedded as its
lookup function. -/
structure Context where
  TemplateStack : List Bytes
  Dict : Bytes → Option Bytes
  Sections : Bytes → Option Bytes

def newContext : Context :=
  { TemplateStack := [], Dict := fun _ => none, Sections := fun _ => none }

/-- The map assignment `m[k] = v`. -/
def mapSet (m : Bytes → Option Bytes) (k v : Bytes) : Bytes → Option Bytes :=
  fun x => if x = k then some v else m x

/-- The surroundings of a `Site`: the files that `readRawFile` opens and reads,
and the two libraries the program calls, `blackfriday.MarkdownCommon` and
`html/template` (parse, then execute on the variables).  The markdown library
may hand back a nil slice, which is `none`; the program tells nil from empty
when it tests `innerDocument != nil`. -/
structure Site where
  file : Bytes → Except Error Bytes
  markdownCommon : Bytes → Option Bytes
  executeTemplate : Bytes → (Bytes → Option Bytes) → Except Error Bytes

def isMarkdown (path : Bytes) : Bool := hasSuffix path (bytes ".md")

def isHTML (path : Bytes) : Bool := hasSuffix path (bytes ".html")

def Site.readRawFile (site : Site) (path : Bytes) : Except Error Bytes := site.file path

def metaStart : Bytes := bytes "<!--!"
def metaEnd : Bytes := bytes "-->"

/-- The literal that a template replaces by the document it wraps. -/
def innerPlaceholder : Bytes := bytes "\x7b\x7b#INNER_DOCUMENT\x7d\x7d"

/-- A call of `loadDocument`, as `parseMeta` makes it for a section. -/
abbrev Loader := Context → Bytes → Outcome (Bytes × Context)

/-- The first statement of the loop of `parseMeta`: the line, trimmed, is
split at its first run of whitespace into `cmd[0]` and `cmd[1]`; `none` when
`len(cmd) != 2`. -/
def splitCommand (line : Bytes) : Option (Bytes × Bytes) :=
  match spaceReSplit2 (trim line) with
  | [cmd0, cmd1] => some (cmd0, cmd1)
  | _ => none

/-- The body of the loop of `parseMeta` on one line of the metadata block. -/
def runDirective (load : Loader) (ctx : Context) (line : Bytes) : Outcome Context :=
  match splitCommand line with
  | some (cmd0, cmd1) =>
    if cmd0 = bytes "@template" then
      .ok { ctx with TemplateStack := ctx.TemplateStack ++ spaceReSplitAll cmd1 }
    else if cmd0 = bytes "@section" ∨ cmd0 = bytes "@append" then
      match spaceReSplit2 cmd1 with
      | [name, src] =>
        if (ctx.Sections name).isNone ∨ cmd0 = bytes "@append" then
          match load { ctx with TemplateStack := [] } (filepathJoin SectionDir src) with
          | .ok (sect, ctx1) =>
            .ok { ctx1 with
                  TemplateStack := ctx.TemplateStack
                  Sections := mapSet ctx1.Sections name ((ctx1.Sections name).getD [] ++ sect) }
          | .error e => .error e
          | .timeout => .timeout
        else .ok ctx
      | _ => .ok ctx
    else if (ctx.Dict cmd0).isNone then
      .ok { ctx with Dict := mapSet ctx.Dict cmd0 cmd1 }
    else .ok ctx
  | none => .ok ctx

/-- The loop of `parseMeta` over the lines of the metadata block; the first
failing section load ends it. -/
def runDirectives (load : Loader) : Context → List Bytes → Outcome Context
  | ctx, [] => .ok ctx
  | ctx, line :: rest =>
    match runDirective load ctx line with
    | .ok ctx1 => runDirectives load ctx1 rest
    | .error e => .error e
    | .timeout => .timeout

/-- The lines that `metaReader` yields for the text `part0` between the
markers: the text is trimmed and a newline is added. -/
def blockLines (part0 : Bytes) : List Bytes := readLines (trim part0 ++ bytes "\n")

/-- The function `parseMeta`, with the `loadDocument` it calls for sections
as `load`. -/
def parseMetaWith (load : Loader) (ctx : Context) (rawContent : Bytes) :
    Outcome (Bytes × Context) :=
  if !hasPrefix rawContent metaStart then .ok (rawContent, ctx)
  else
    match splitN2 (rawContent.drop metaStart.length) metaEnd with
    | [part0, part1] =>
      match runDirectives load ctx (blockLines part0) with
      | .ok ctx1 => .ok (trimLeft part1, ctx1)
      | .error e => .error e
      | .timeout => .timeout
    | _ => .ok (rawContent, ctx)

/-- The step `if innerDocument != nil` of `loadDocument`: every occurrence of
the placeholder in `content` becomes the inner document, and the result is a
slice that is not nil.  A `content` that is nil (`none`) reads as empty. -/
def substituteInner (content : Option Bytes) : Option Bytes → Option Bytes
  | some inner => some (replaceAll (content.getD []) innerPlaceholder inner)
  | none => content

/-- The loop of `loadDocument`, entered with the current `path` and
`innerDocument` (`none` is Go's `nil`: before the first iteration, or a nil
slice from the markdown library).  Each iteration uses one unit of fuel, and
the section loads of its `parseMeta` get what is left. -/
def Site.loadLoop (site : Site) : Nat → Context → Bytes → Option Bytes →
    Outcome (Bytes × Context)
  | 0, _, _, _ => .timeout
  | fuel + 1, ctx, path, innerDocument =>
    match site.readRawFile path with
    | .error e => .error e
    | .ok rawContent =>
      if !(isMarkdown path || isHTML path) then .ok (rawContent, ctx)
      else
        match parseMetaWith (fun c p => site.loadLoop fuel c p none) ctx rawContent with
        | .error e => .error e
        | .timeout => .timeout
        | .ok (body, ctx1) =>
          let content := if isMarkdown path then site.markdownCommon body else some body
          let content := substituteInner content innerDocument
          match ctx1.TemplateStack.getLast? with
          | some templateName =>
            site.loadLoop fuel { ctx1 with TemplateStack := ctx1.TemplateStack.dropLast }
              (filepathJoin TempalteDir templateName) content
          | none => .ok (content.getD [], ctx1)

def Site.loadDocument (site : Site) (fuel : Nat) (ctx : Context) (path : Bytes) :
    Outcome (Bytes × Context) :=
  site.loadLoop fuel ctx path none

def Site.parseMeta (site : Site) (fuel : Nat) (ctx : Context) (rawContent : Bytes) :
    Outcome (Bytes × Context) :=
  parseMetaWith (site.loadDocument fuel) ctx rawContent

/-- A match of `sectionRe` (the source writes it with escaped braces: two
opening braces, `#`, one or more bytes other than a closing brace, two
closing braces) at the start of `s`: the section name and the text after the
match.  The run of name bytes is greedy and cannot give back a byte, since
what follows it has to be a closing brace. -/
def sectionMatch (s : Bytes) : Option (Bytes × Bytes) :=
  match s with
  | 123 :: 123 :: 35 :: t =>
    match t.takeWhile (fun c => c != 125), t.dropWhile (fun c => c != 125) with
    | _ :: _, 125 :: 125 :: rest => some (t.takeWhile (fun c => c != 125), rest)
    | _, _ => none
  | _ => none

/-- One pass of `sectionRe.ReplaceAllStringFunc` with the closure of
`renderDocument`: the new text, and whether the closure set `replaced`.
`skip` counts the bytes of a match still to be passed over. -/
def sectionPass (sections : Bytes → Option Bytes) : Nat → Bytes → Bytes × Bool
  | _, [] => ([], false)
  | k + 1, _ :: s => sectionPass sections k s
  | 0, c :: s =>
    match sectionMatch (c :: s) with
    | some (sectionName, _) =>
      let r := sectionPass sections (sectionName.length + 4) s
      match sections sectionName with
      | some sect => (sect ++ r.1, true)
      | none => (r.1, r.2)
    | none =>
      let r := sectionPass sections 0 s
      (c :: r.1, r.2)

/-- The loop `for replaced := true; replaced; ...` of `renderDocument`:
passes are made until one leaves `replaced` false. -/
def resolveSections (sections : Bytes → Option Bytes) : Nat → Bytes → Option Bytes
  | 0, _ => none
  | fuel + 1, tplContent =>
    let r := sectionPass sections 0 tplContent
    if r.2 then resolveSections sections fuel r.1 else some r.1

def Site.renderDocument (site : Site) (fuel : Nat) (path : Bytes) : Outcome Bytes :=
  match site.loadDocument fuel newContext path with
  | .error e => .error e
  | .timeout => .timeout
  | .ok (content, ctx) =>
    match resolveSections ctx.Sections fuel content with
    | none => .timeout
    | some tplContent =>
      match site.executeTemplate tplContent ctx.Dict with
      | .ok out => .ok out
      | .error e => .error e


/-- A document in which `parseMeta` finds no metadata block: it does not
begin with the opening marker, or no closing marker follows that marker. -/
def NoMetaBlock (raw : Bytes) : Prop :=
  ¬ metaStart <+: raw ∨ ¬ metaEnd <:+: raw.drop metaStart.length

/-- A command token or a name: not empty and free of whitespace. -/
def Token (k : Bytes) : Prop := k ≠ [] ∧ ∀ x ∈ k, isSpace x = false

/-- An argument that a directive line hands over as it is written: not empty,
on one line, not beginning with whitespace and not ending with a byte of the
cutset.  Whitespace inside it is allowed. -/
def PlainArg (v : Bytes) : Prop :=
  v ≠ [] ∧ 10 ∉ v ∧ isSpace (v.headD 0) = false ∧ v.getLastD 0 ∉ cutset

instance (k : Bytes) : Decidable (Token k) := by unfold Token; infer_instance

instance (v : Bytes) : Decidable (PlainArg v) := by unfold PlainArg; infer_instance

/-- The body that a successful call returned. -/
def bodyOf : Outcome (Bytes × Context) → Option Bytes
  | .ok (body, _) => some body
  | _ => none

/-- The value of variable `k` after a successful call. -/
def variableOf (o : Outcome (Bytes × Context)) (k : Bytes) : Option Bytes :=
  match o with
  | .ok (_, ctx) => ctx.Dict k
  | _ => none

/-- The content of section `name` after a successful call. -/
def sectionOf (o : Outcome (Bytes × Context)) (name : Bytes) : Option Bytes :=
  match o with
  | .ok (_, ctx) => ctx.Sections name
  | _ => none

/-- The template stack after a successful call. -/
def stackOf : Outcome (Bytes × Context) → Option (List Bytes)
  | .ok (_, ctx) => some ctx.TemplateStack
  | _ => none

/-- The commands and arguments of the lines of a block that split in two, in
the order of the lines. -/
def directives (part0 : Bytes) : List (Bytes × Bytes) :=
  (blockLines part0).filterMap splitCommand

/-- The argument of the first directive whose command token is `k`. -/
def firstArgument (ds : List (Bytes × Bytes)) (k : Bytes) : Option Bytes :=
  (ds.find? (fun d => d.1 == k)).map (fun d => d.2)

/-- What `loadDocument` makes of a file without metadata block and without
templates to apply: the bytes read, converted when the path is markdown. -/
def plainContent (site : Site) (path raw : Bytes) : Bytes :=
  if isMarkdown path then (site.markdownCommon raw).getD [] else raw

/-- A small site on which the theorems are instantiated. -/
def demoSite : Site :=
  { file := fun p =>
      if p = bytes "pages/index.html" then
        .ok (bytes "<!--!\n@template outer.html inner.html\n-->\n<p>Hi</p>")
      else if p = bytes "templates/outer.html" then
        .ok (bytes "<html>\x7b\x7b#INNER_DOCUMENT\x7d\x7d</html>")
      else if p = bytes "templates/inner.html" then
        .ok (bytes "<div>\x7b\x7b#INNER_DOCUMENT\x7d\x7d</div>")
      else if p = bytes "sections/a.html" then .ok (bytes "<a>A</a>")
      else if p = bytes "sections/b.html" then .ok (bytes "<b>B</b>")
      else if p = bytes "pages/plain.html" then .ok (bytes "<p>plain</p>")
      else if p = bytes "pages/nested.html" then
        .ok (bytes "<!--!\n@section a a.html\n-->\n\x7b\x7b\x7b\x7b#x\x7d\x7d#a\x7d\x7d")
      else if p = bytes "pages/logo.png" then
        .ok (bytes "<!--!\n@title T\n-->\x7b\x7b#INNER_DOCUMENT\x7d\x7d")
      else .error "open: no such file or directory"
    markdownCommon := fun b => some b
    executeTemplate := fun t _ => .ok t }

/-- A second small site: a page whose last template is a `.txt` file, a
section file that declares the section it is loaded into, a page and a
template that both assign `title`, and a template that names itself. -/
def chainSite : Site :=
  { file := fun p =>
      if p = bytes "pages/raw.html" then
        .ok (bytes "<!--!\n@template a.txt b.txt\n-->\nBody")
      else if p = bytes "templates/a.txt" then .ok (bytes "<a>\x7b\x7b#INNER_DOCUMENT\x7d\x7d</a>")
      else if p = bytes "templates/b.txt" then .ok (bytes "<b>\x7b\x7b#INNER_DOCUMENT\x7d\x7d</b>")
      else if p = bytes "pages/twice.html" then
        .ok (bytes "<!--!\n@section nav outer.html\n-->\nP")
      else if p = bytes "sections/outer.html" then
        .ok (bytes "<!--!\n@section nav inner.html\n-->\nA")
      else if p = bytes "sections/inner.html" then .ok (bytes "B")
      else if p = bytes "pages/post.html" then
        .ok (bytes "<!--!\n@template base.html\ntitle Post\n-->\nHello")
      else if p = bytes "templates/base.html" then
        .ok (bytes "<!--!\ntitle Site\nauthor me\n-->\n<h1>\x7b\x7b#INNER_DOCUMENT\x7d\x7d</h1>")
      else if p = bytes "pages/loop.html" then
        .ok (bytes "<!--!\n@template t.html\n-->\nx")
      else if p = bytes "templates/t.html" then
        .ok (bytes "<!--!\n@template t.html\n-->\n<t>\x7b\x7b#INNER_DOCUMENT\x7d\x7d</t>")
      else .error "open: no such file or directory"
    markdownCommon := fun b => some b
    executeTemplate := fun t _ => .ok t }

/-- Worker of `htmlTemplateText`; `inComment` tells that the text is inside a
comment, `skip` counts the bytes of a marker still to be passed over. -/
def dropCommentsAux : Bool → Nat → Bytes → Option Bytes
  | inComment, _, [] => if inComment then none else some []
  | inComment, k + 1, _ :: s => dropCommentsAux inComment k s
  | false, 0, c :: s =>
    if (bytes "<!--").isPrefixOf (c :: s) then dropCommentsAux true 3 s
    else (dropCommentsAux false 0 s).map (fun out => c :: out)
  | true, 0, c :: s =>
    if (bytes "-->").isPrefixOf (c :: s) then dropCommentsAux false 2 s
    else dropCommentsAux true 0 s

/-- What the library `html/template` writes for a template text without
actions, as far as the examples here go (elements without attributes, text
and comments): the bytes are written as they are, except that an HTML
comment, from `<!--` to the next `-->`, is left out; a comment that is not
closed is an error of the library. -/
def htmlTemplateText (text : Bytes) : Except Error Bytes :=
  match dropCommentsAux false 0 text with
  | some out => .ok out
  | none => .error "html/template: ends in a non-text context"

/-- A site with a page that holds an HTML comment and a page without one, and
with `htmlTemplateText` for the template library. -/
def noteSite : Site :=
  { file := fun p =>
      if p = bytes "pages/note.html" then .ok (bytes "<p>a<!-- note --></p>")
      else if p = bytes "pages/plain.html" then .ok (bytes "<p>a</p>")
      else .error "open: no such file or directory"
    markdownCommon := fun b => some b
    executeTemplate := fun t _ => htmlTemplateText t }

/-- The section load that a line makes when it runs in `ctx`: the context
with the template stack cleared and the path under `sections/`.  A line makes
a load when it is a `@section`/`@append` line with a name and a source and the
section is unset or the command is `@append`; `none` for any other line. -/
def sectionLoadOf (ctx : Context) (line : Bytes) : Option (Context × Bytes) :=
  match splitCommand line with
  | some (cmd0, cmd1) =>
    if cmd0 = bytes "@section" ∨ cmd0 = bytes "@append" then
      match spaceReSplit2 cmd1 with
      | [name, src] =>
        if (ctx.Sections name).isNone ∨ cmd0 = bytes "@append" then
          some ({ ctx with TemplateStack := [] }, filepathJoin SectionDir src)
        else none
      | _ => none
    else none
  | none => none

/-- The section loads that the loop over the lines makes, in order, each with
the context it is made in: the load of a line, then the loads of the lines
after it in the context the line leaves; the loop stops at a line that does
not succeed. -/
def sectionLoads (load : Loader) : Context → List Bytes → List (Context × Bytes)
  | _, [] => []
  | ctx, line :: rest =>
    (sectionLoadOf ctx line).toList ++
      match runDirective load ctx line with
      | .ok ctx1 => sectionLoads load ctx1 rest
      | _ => []

/-- The lines that `parseMeta` runs on a document: the lines of its metadata
block, and none when it finds no block. -/
def metaLines (rawContent : Bytes) : List Bytes :=
  if !hasPrefix rawContent metaStart then []
  else
    match splitN2 (rawContent.drop metaStart.length) metaEnd with
    | [part0, _] => blockLines part0
    | _ => []

/-- The call returned a value. -/
def isOk {α : Type} : Outcome α → Bool
  | .ok _ => true
  | _ => false

/-- The lines make no section load when they run in a context with these
sections: every `@section`/`@append` line that carries a name and a source is
a `@section` whose name is set. -/
def noSectionLoad (sections : Bytes → Option Bytes) : List Bytes → Bool
  | [] => true
  | line :: rest =>
    (match splitCommand line with
      | some (cmd0, cmd1) =>
        if cmd0 = bytes "@section" ∨ cmd0 = bytes "@append" then
          match spaceReSplit2 cmd1 with
          | [name, _] => decide (cmd0 = bytes "@section") && (sections name).isSome
          | _ => true
        else true
      | none => true) && noSectionLoad sections rest

/-- A line that the loop of `parseMeta` passes over: it does not split into
a command and an argument, or it is a `@section`/`@append` line whose argument
is a single token. -/
def malformed (line : Bytes) : Bool :=
  match splitCommand line with
  | none => true
  | some (cmd0, cmd1) =>
    (decide (cmd0 = bytes "@section") || decide (cmd0 = bytes "@append")) &&
      cmd1.all (fun x => !isSpace x)

/-- Names written one after the other: a first name, then separators each
followed by a name. -/
def joinNames (first : Bytes) : List (Bytes × Bytes) → Bytes
  | [] => first
  | (sep, name) :: more => first ++ sep ++ joinNames name more

/-- A separator between names: a run of whitespace that is not empty. -/
def Separator (sep : Bytes) : Prop := sep ≠ [] ∧ ∀ x ∈ sep, isSpace x = true

/-- A loader keeps the variables that are set. -/
def KeepsDict (load : Loader) : Prop :=
  ∀ (c : Context) (p body : Bytes) (c1 : Context) (k v : Bytes),
    c.Dict k = some v → load c p = .ok (body, c1) → c1.Dict k = some v

/-- A piece of a text that is written with whole placeholders: literal bytes,
which may hold braces but no start of a placeholder (`Seg.wellFormed`), or the
placeholder of a section name. -/
inductive Seg where
  | lit (s : Bytes)
  | ph (name : Bytes)

/-- The bytes of a piece; a placeholder is two opening braces, `#`, the name
and two closing braces. -/
def Seg.render : Seg → Bytes
  | .lit s => s
  | .ph name => 123 :: 123 :: 35 :: (name ++ [125, 125])

/-- The text that a list of pieces writes. -/
def renderSegs : List Seg → Bytes
  | [] => []
  | seg :: rest => seg.render ++ renderSegs rest

/-- A literal piece has no start of a placeholder: the bytes `{{#` do not
occur in it, and it does not end in an opening brace, which the bytes after it
could complete to `{{#`.  Braces are free otherwise, as in `{{.title}}` or in
a style sheet.  The name of a placeholder is not empty and has no closing
brace. -/
def Seg.wellFormed : Seg → Prop
  | .lit s => ¬ [123, 123, 35] <:+: s ∧ s.getLast? ≠ some 123
  | .ph name => name ≠ [] ∧ ∀ c ∈ name, c ≠ 125

/-- Every section that is set has a content written with whole placeholders:
`pieces name` are the pieces of the content of `name`. -/
def SectionsInPieces (sections : Bytes → Option Bytes) (pieces : Bytes → List Seg) : Prop :=
  ∀ name content, sections name = some content →
    content = renderSegs (pieces name) ∧ ∀ seg ∈ pieces name, seg.wellFormed

/-- One pass on pieces: a placeholder becomes the pieces of its section, or
nothing when the section is not set. -/
def expandSegs (sections : Bytes → Option Bytes) (pieces : Bytes → List Seg) :
    List Seg → List Seg
  | [] => []
  | .lit s :: rest => .lit s :: expandSegs sections pieces rest
  | .ph name :: rest =>
    match sections name with
    | some _ => pieces name ++ expandSegs sections pieces rest
    | none => expandSegs sections pieces rest

/-- Some placeholder among the pieces names a section that is set. -/
def anyPresent (sections : Bytes → Option Bytes) : List Seg → Bool
  | [] => false
  | .lit _ :: rest => anyPresent sections rest
  | .ph name :: rest => (sections name).isSome || anyPresent sections rest

/-- The depth of nesting of pieces for a ranking of the sections: one more
than the highest rank of a section that is set and has a placeholder among
the pieces, and zero when there is none. -/
def nesting (sections : Bytes → Option Bytes) (rank : Bytes → Nat) : List Seg → Nat
  | [] => 0
  | .lit _ :: rest => nesting sections rank rest
  | .ph name :: rest =>
    if (sections name).isSome then max (rank name + 1) (nesting sections rank rest)
    else nesting sections rank rest

/-- The bytes `{{#a}`: the start of a placeholder of `a` and one closing
brace. -/
def opener : Bytes := bytes "\x7b\x7b#a\x7d"

/-- A content without any placeholder: two closing braces, then `opener`
twice. -/
def strayContent : Bytes := [125, 125] ++ opener ++ opener

/-- The sections of the example: `a` alone is set, to `strayContent`. -/
def straySections : Bytes → Option Bytes := mapSet (fun _ => none) (bytes "a") strayContent

/-- The texts of the example after an even number of passes: `i` closing
braces, `opener` twice, one closing brace, `opener` `j` times. -/
def strayEven (i j : Nat) : Bytes :=
  List.replicate i 125 ++ (opener ++ (opener ++ 125 :: (List.replicate j opener).flatten))

/-- The texts of the example after an odd number of passes: `i` closing
braces, `opener`, two closing braces, `opener` `j` times. -/
def strayOdd (i j : Nat) : Bytes :=
  List.replicate i 125 ++ (opener ++ 125 :: 125 :: (List.replicate j opener).flatten)

instance (seg : Seg) : Decidable seg.wellFormed := by
  cases seg <;> (unfold Seg.wellFormed; infer_instance)

/-- Sections nested one in the other: `nav` has a placeholder of `item`. -/
def nestedSections : Bytes → Option Bytes := fun name =>
  if name = bytes "nav" then some (bytes "<ul>\x7b\x7b#item\x7d\x7d</ul>")
  else if name = bytes "item" then some (bytes "<li/>")
  else none

/-- The pieces of the contents of `nestedSections`. -/
def nestedPieces : Bytes → List Seg := fun name =>
  if name = bytes "nav" then [.lit (bytes "<ul>"), .ph (bytes "item"), .lit (bytes "</ul>")]
  else if name = bytes "item" then [.lit (bytes "<li/>")]
  else []

/-- A ranking of `nestedSections`: `nav` above the others. -/
def nestedRank : Bytes → Nat := fun name => if name = bytes "nav" then 1 else 0

/-! ## Lemmas on the library functions -/

theorem isPrefixOf_false_of_not_infix (sep s : Bytes) (h : ¬ sep <:+: s) :
    sep.isPrefixOf s = false := by
  cases hp : sep.isPrefixOf s with
  | false => rfl
  | true => exact absurd (List.isPrefixOf_iff_prefix.mp hp).isInfix h

theorem cut_eq_none (sep s : Bytes) (h : ¬ sep <:+: s) : cut sep s = none := by
  induction s with
  | nil =>
    have : sep ≠ [] := fun e => h (e ▸ List.infix_refl _)
    simp [cut, this]
  | cons c s ih =>
    have h1 := isPrefixOf_false_of_not_infix sep (c :: s) h
    have h2 : ¬ sep <:+: s := fun hi => h (hi.trans (List.suffix_cons c s).isInfix)
    simp [cut, h1, ih h2]

theorem metaEnd_infix_of_isPrefixOf (c : Nat) (m rest : Bytes)
    (h : metaEnd.isPrefixOf (c :: m ++ metaEnd ++ rest) = true) : metaEnd <:+: c :: m := by
  match m with
  | [] => simp [metaEnd, bytes] at h
  | [d] => simp [metaEnd, bytes] at h
  | d :: e :: m2 =>
    simp [metaEnd, bytes] at h
    obtain ⟨h1, h2, h3⟩ := h
    subst h1 h2 h3
    exact ⟨[], m2, by simp [metaEnd, bytes]⟩

theorem cut_metaEnd (m rest : Bytes) (h : ¬ metaEnd <:+: m) :
    cut metaEnd (m ++ metaEnd ++ rest) = some (m, rest) := by
  induction m with
  | nil => simp [metaEnd, bytes, cut]
  | cons c m ih =>
    have h1 : metaEnd.isPrefixOf (c :: m ++ metaEnd ++ rest) = false := by
      cases hp : metaEnd.isPrefixOf (c :: m ++ metaEnd ++ rest) with
      | false => rfl
      | true => exact absurd (metaEnd_infix_of_isPrefixOf c m rest hp) h
    have h2 : ¬ metaEnd <:+: m := fun hi => h (hi.trans (List.suffix_cons c m).isInfix)
    have h3 : cut metaEnd (c :: (m ++ metaEnd ++ rest)) = some (c :: m, rest) := by
      have h1' : metaEnd.isPrefixOf (c :: (m ++ metaEnd ++ rest)) = false := h1
      simp only [cut, h1', ih h2, Bool.false_eq_true, if_false]
    exact h3

/-- Without the opening marker `parseMeta` gives the document back. -/
theorem parseMetaWith_no_start (load : Loader) (ctx : Context) (raw : Bytes)
    (h : hasPrefix raw metaStart = false) : parseMetaWith load ctx raw = .ok (raw, ctx) := by
  simp [parseMetaWith, h]

/-- Without a closing marker `parseMeta` gives the document back. -/
theorem parseMetaWith_no_end (load : Loader) (ctx : Context) (raw : Bytes)
    (h : ¬ metaEnd <:+: raw.drop metaStart.length) :
    parseMetaWith load ctx raw = .ok (raw, ctx) := by
  unfold parseMetaWith
  split
  · rfl
  · simp [splitN2, cut_eq_none _ _ h]

/-- On a document with a metadata block `parseMeta` runs the lines of the
trimmed block and returns what follows the block, trimmed on the left. -/
theorem parseMetaWith_block (load : Loader) (ctx : Context) (m rest : Bytes)
    (h : ¬ metaEnd <:+: m) :
    parseMetaWith load ctx (metaStart ++ m ++ metaEnd ++ rest) =
      match runDirectives load ctx (blockLines m) with
      | .ok ctx1 => .ok (trimLeft rest, ctx1)
      | .error e => .error e
      | .timeout => .timeout := by
  have hd : (metaStart ++ m ++ metaEnd ++ rest).drop metaStart.length = m ++ metaEnd ++ rest := by
    simp [List.append_assoc]
  have hp : hasPrefix (metaStart ++ m ++ metaEnd ++ rest) metaStart = true := by
    simp [hasPrefix, List.append_assoc]
  unfold parseMetaWith
  rw [hp, hd]
  simp only [splitN2, cut_metaEnd m rest h, Bool.not_true, Bool.false_eq_true, if_false]

theorem readLines_line (l s : Bytes) (h : 10 ∉ l) :
    readLines (l ++ 10 :: s) = (l ++ [10]) :: readLines s := by
  induction l with
  | nil => simp [readLines]
  | cons c l ih =>
    have hc : c ≠ 10 := fun e => h (by simp [e])
    have hl : 10 ∉ l := fun e => h (by simp [e])
    simp [readLines, hc, ih hl]

theorem readLines_single (l : Bytes) (h : 10 ∉ l) : readLines (l ++ [10]) = [l ++ [10]] := by
  simpa [readLines] using readLines_line l [] h

theorem trimLeft_cons (c : Nat) (s : Bytes) (h : c ∉ cutset) : trimLeft (c :: s) = c :: s := by
  simp [trimLeft, h]

theorem trimRight_newline (s : Bytes) : trimRight (s ++ [10]) = trimRight s := by
  simp [trimRight, trimLeft, cutset, bytes]

theorem trimRight_append (s t : Bytes) (ht : t ≠ []) (hl : t.getLastD 0 ∉ cutset) :
    trimRight (s ++ t) = s ++ t := by
  obtain ⟨u, c, rfl⟩ : ∃ u c, t = u ++ [c] := by
    rcases List.eq_nil_or_concat t with h | ⟨u, c, h⟩
    · exact absurd h ht
    · exact ⟨u, c, by simpa using h⟩
  have hc : c ∉ cutset := by simpa using hl
  simp [trimRight, trimLeft, hc]

/-- A line that begins and ends with bytes outside the cutset is what
`strings.Trim` leaves of it and its newline. -/
theorem trim_line (c : Nat) (s t : Bytes) (hc : c ∉ cutset) (ht : t ≠ [])
    (hl : t.getLastD 0 ∉ cutset) : trim (c :: s ++ t ++ [10]) = c :: s ++ t := by
  have h1 : trimLeft (c :: s ++ t ++ [10]) = c :: s ++ t ++ [10] := trimLeft_cons c _ hc
  rw [trim, h1, trimRight_newline]
  exact trimRight_append (c :: s) t ht hl

theorem dropWhile_word (k r : Bytes) (c : Nat) (hk : ∀ x ∈ k, isSpace x = false)
    (hc : isSpace c = true) :
    (k ++ c :: r).dropWhile (fun x => !isSpace x) = c :: r := by
  induction k with
  | nil => simp [hc]
  | cons x k ih =>
    have hx : isSpace x = false := hk x (by simp)
    have := ih (fun y hy => hk y (by simp [hy]))
    simp [List.dropWhile, hx, this]

theorem takeWhile_word (k r : Bytes) (c : Nat) (hk : ∀ x ∈ k, isSpace x = false)
    (hc : isSpace c = true) :
    (k ++ c :: r).takeWhile (fun x => !isSpace x) = k := by
  induction k with
  | nil => simp [hc]
  | cons x k ih =>
    have hx : isSpace x = false := hk x (by simp)
    have := ih (fun y hy => hk y (by simp [hy]))
    simp [List.takeWhile, hx, this]

theorem dropWhile_isSpace_arg (v : Bytes) (hh : isSpace (v.headD 0) = false) :
    v.dropWhile isSpace = v := by
  cases v with
  | nil => rfl
  | cons c v => simp [List.dropWhile, show isSpace c = false from hh]

/-- The call `spaceRe.Split(line, 2)` on a command, one blank and an argument
that does not begin with whitespace. -/
theorem spaceReSplit2_word (k v : Bytes) (hk : ∀ x ∈ k, isSpace x = false)
    (hh : isSpace (v.headD 0) = false) : spaceReSplit2 (k ++ 32 :: v) = [k, v] := by
  have h32 : isSpace 32 = true := by decide
  have hd := dropWhile_word k v 32 hk h32
  have ht := takeWhile_word k v 32 hk h32
  have hv : (32 :: v).dropWhile isSpace = v := by
    simp [List.dropWhile, h32, dropWhile_isSpace_arg v hh]
  unfold spaceReSplit2
  rw [hd]
  simp only [ht, hv]

theorem spaceReSplit2_noSpace (k : Bytes) (hk : ∀ x ∈ k, isSpace x = false) :
    spaceReSplit2 k = [k] := by
  have : k.dropWhile (fun x => !isSpace x) = [] := by
    rw [List.dropWhile_eq_nil_iff]
    intro x hx
    simp [hk x hx]
  simp [spaceReSplit2, this]

theorem spaceReSplitAux_ne_nil (b : Bool) (s : Bytes) : spaceReSplitAux b s ≠ [] := by
  induction s generalizing b with
  | nil => simp [spaceReSplitAux]
  | cons c s ih =>
    unfold spaceReSplitAux
    split
    · split
      · exact ih true
      · simp
    · split <;> simp

theorem spaceReSplitAux_word (w r : Bytes) (hw : ∀ x ∈ w, isSpace x = false) :
    spaceReSplitAux false (w ++ r) =
      (w ++ (spaceReSplitAux false r).headD []) :: (spaceReSplitAux false r).tail := by
  induction w with
  | nil =>
    cases h : spaceReSplitAux false r with
    | nil => exact absurd h (spaceReSplitAux_ne_nil false r)
    | cons p ps => simpa using h
  | cons c w ih =>
    have hc : isSpace c = false := hw c (by simp)
    have := ih (fun y hy => hw y (by simp [hy]))
    simp [spaceReSplitAux, hc, this]

theorem spaceReSplitAux_true_word (w : Bytes) (hw : w ≠ []) (hh : isSpace (w.headD 0) = false) :
    spaceReSplitAux true w = spaceReSplitAux false w := by
  cases w with
  | nil => exact absurd rfl hw
  | cons c w => simp [spaceReSplitAux, show isSpace c = false from hh]

/-- The call `spaceRe.Split(arg, -1)` on two names that a blank separates. -/
theorem spaceReSplitAll_two (a b : Bytes) (ha : ∀ x ∈ a, isSpace x = false)
    (hb : ∀ x ∈ b, isSpace x = false) (hne : b ≠ []) :
    spaceReSplitAll (a ++ 32 :: b) = [a, b] := by
  have hbh : isSpace (b.headD 0) = false := by
    cases b with
    | nil => exact absurd rfl hne
    | cons c b => exact hb c (by simp)
  have h1 : spaceReSplitAux false b = [b] := by
    simpa [spaceReSplitAux] using spaceReSplitAux_word b [] hb
  have h2 : spaceReSplitAux false (32 :: b) = [[], b] := by
    simp [spaceReSplitAux, isSpace, spaceReSplitAux_true_word b hne hbh, h1]
  rw [spaceReSplitAll, spaceReSplitAux_word a _ ha, h2]
  simp

theorem getLastD_append (s t : Bytes) (ht : t ≠ []) :
    (s ++ t).getLastD 0 = t.getLastD 0 := by
  rcases List.eq_nil_or_concat t with h | ⟨u, c, h⟩
  · exact absurd h ht
  · subst h
    rw [List.concat_eq_append, ← List.append_assoc, List.getLastD_concat, List.getLastD_concat]

theorem not_mem_cutset_of_not_isSpace (c : Nat) (h : isSpace c = false) : c ∉ cutset := by
  intro hmem
  simp [cutset, bytes] at hmem
  rcases hmem with h1 | h1 | h1 | h1 <;> subst h1 <;> simp [isSpace] at h

theorem getLastD_not_mem_cutset (t : Bytes) (ht : t ≠ []) (h : ∀ x ∈ t, isSpace x = false) :
    t.getLastD 0 ∉ cutset := by
  rcases List.eq_nil_or_concat t with h1 | ⟨u, c, h1⟩
  · exact absurd h1 ht
  · subst h1
    rw [List.concat_eq_append, List.getLastD_concat]
    exact not_mem_cutset_of_not_isSpace c (h c (by simp))

theorem isHTML_not_isMarkdown (path : Bytes) (h : isHTML path = true) :
    isMarkdown path = false := by
  cases hm : isMarkdown path with
  | false => rfl
  | true =>
    obtain ⟨a, ha⟩ := List.isSuffixOf_iff_suffix.mp h
    obtain ⟨b, hb⟩ := List.isSuffixOf_iff_suffix.mp hm
    have := congrArg List.getLast? (ha.trans hb.symm)
    simp [bytes] at this

/-! ## Lemmas on the program -/

theorem hasPrefix_eq_false (raw pre : Bytes) (h : ¬ pre <+: raw) : hasPrefix raw pre = false := by
  cases hp : hasPrefix raw pre with
  | false => rfl
  | true => exact absurd (List.isPrefixOf_iff_prefix.mp hp) h

theorem parseMetaWith_noMetaBlock (load : Loader) (ctx : Context) (raw : Bytes)
    (h : NoMetaBlock raw) : parseMetaWith load ctx raw = .ok (raw, ctx) := by
  rcases h with h | h
  · exact parseMetaWith_no_start load ctx raw (hasPrefix_eq_false raw metaStart h)
  · exact parseMetaWith_no_end load ctx raw h

/-- One iteration of the loop of `loadDocument` on an `.html` file. -/
theorem loadLoop_html (site : Site) (fuel : Nat) (ctx : Context) (path raw : Bytes)
    (inner : Option Bytes) (hh : isHTML path = true) (hr : site.readRawFile path = .ok raw) :
    site.loadLoop (fuel + 1) ctx path inner =
      match parseMetaWith (fun c p => site.loadLoop fuel c p none) ctx raw with
      | .error e => .error e
      | .timeout => .timeout
      | .ok (body, ctx1) =>
        match ctx1.TemplateStack.getLast? with
        | some templateName =>
          site.loadLoop fuel { ctx1 with TemplateStack := ctx1.TemplateStack.dropLast }
            (filepathJoin TempalteDir templateName) (substituteInner (some body) inner)
        | none => .ok ((substituteInner (some body) inner).getD [], ctx1) := by
  have hm := isHTML_not_isMarkdown path hh
  simp only [Site.loadLoop, hr, hh, hm]
  rfl

/-- A `@template` line with two names pushes the two names. -/
theorem runDirective_template_two (load : Loader) (ctx : Context) (outer inner : Bytes)
    (ho : ∀ x ∈ outer, isSpace x = false) (hi : ∀ x ∈ inner, isSpace x = false)
    (hone : outer ≠ []) (hine : inner ≠ []) :
    runDirective load ctx (bytes "@template " ++ outer ++ 32 :: inner ++ [10]) =
      .ok { ctx with TemplateStack := ctx.TemplateStack ++ [outer, inner] } := by
  have hl : (outer ++ 32 :: inner).getLastD 0 ∉ cutset := by
    rw [show outer ++ 32 :: inner = (outer ++ [32]) ++ inner by simp,
      getLastD_append _ _ hine]
    exact getLastD_not_mem_cutset inner hine hi
  have htrim : trim (bytes "@template " ++ outer ++ 32 :: inner ++ [10]) =
      bytes "@template" ++ 32 :: (outer ++ 32 :: inner) := by
    have := trim_line 64 (bytes "template ") (outer ++ 32 :: inner) (by decide) (by simp) hl
    simpa [bytes, List.append_assoc] using this
  have hoh : isSpace ((outer ++ 32 :: inner).headD 0) = false := by
    cases outer with
    | nil => exact absurd rfl hone
    | cons c o => exact ho c (by simp)
  have hsplit := spaceReSplit2_word (bytes "@template") (outer ++ 32 :: inner) (by decide) hoh
  unfold runDirective splitCommand
  rw [htrim, hsplit]
  simp [spaceReSplitAll_two outer inner ho hi hine]

/-- A line made of a command token, a blank and an argument splits into the
two. -/
theorem splitCommand_line (k v : Bytes) (hk : Token k) (hv : PlainArg v) :
    splitCommand ((k ++ 32 :: v) ++ [10]) = some (k, v) := by
  obtain ⟨hkne, hks⟩ := hk
  obtain ⟨hvne, _, hvh, hvl⟩ := hv
  cases k with
  | nil => exact absurd rfl hkne
  | cons c k =>
    have hc : c ∉ cutset := not_mem_cutset_of_not_isSpace c (hks c (by simp))
    have hl : (32 :: v).getLastD 0 ∉ cutset := by
      have := getLastD_append [32] v hvne
      simp only [List.singleton_append] at this
      rw [this]
      exact hvl
    have htrim : trim ((c :: k ++ 32 :: v) ++ [10]) = c :: k ++ 32 :: v :=
      trim_line c k (32 :: v) hc (by simp) hl
    unfold splitCommand
    rw [htrim, spaceReSplit2_word (c :: k) v hks hvh]

theorem not_mem_of_token (k : Bytes) (hk : Token k) : 10 ∉ k := by
  intro h
  simpa [isSpace] using hk.2 10 h

theorem not_mem_directive (k v : Bytes) (hk : Token k) (hv : PlainArg v) :
    10 ∉ k ++ 32 :: v := by
  intro h
  simp at h
  rcases h with h | h
  · exact not_mem_of_token k hk h
  · exact hv.2.1 h

/-- A line whose command is none of `@template`, `@section`, `@append` sets
the variable named by the command when it is unset, and nothing else. -/
theorem runDirective_variable (load : Loader) (ctx : Context) (line k v : Bytes)
    (hs : splitCommand line = some (k, v))
    (h1 : k ≠ bytes "@template") (h2 : k ≠ bytes "@section") (h3 : k ≠ bytes "@append") :
    runDirective load ctx line =
      .ok (if (ctx.Dict k).isNone then { ctx with Dict := mapSet ctx.Dict k v } else ctx) := by
  unfold runDirective
  rw [hs]
  simp only [h1, h2, h3, or_self, if_false]
  split <;> rfl

/-- A `@template` line leaves the variables and the sections as they are. -/
theorem runDirective_template (load : Loader) (ctx : Context) (line v : Bytes)
    (hs : splitCommand line = some (bytes "@template", v)) :
    runDirective load ctx line =
      .ok { ctx with TemplateStack := ctx.TemplateStack ++ spaceReSplitAll v } := by
  unfold runDirective
  rw [hs]
  simp

theorem runDirective_ignored (load : Loader) (ctx : Context) (line : Bytes)
    (hs : splitCommand line = none) : runDirective load ctx line = .ok ctx := by
  unfold runDirective
  rw [hs]

/-! ## Template wrapping -/

/-- C1: a leaf `.html` document whose metadata block is the single directive
`@template outer inner`, with both template files readable `.html` files
without a metadata block, loads from a fresh context as the outer template
with its placeholder replaced by the inner template whose placeholder is
replaced by the leaf body: the last name wraps first. -/
theorem loadDocument_template_lifo (site : Site) (fuel : Nat)
    (leafPath m rest outer inner outerBody innerBody : Bytes)
    (hleaf : isHTML leafPath = true)
    (hread : site.readRawFile leafPath = .ok (metaStart ++ m ++ metaEnd ++ rest))
    (hm : ¬ metaEnd <:+: m)
    (hdir : trim m = bytes "@template " ++ outer ++ 32 :: inner)
    (ho : ∀ x ∈ outer, isSpace x = false) (hi : ∀ x ∈ inner, isSpace x = false)
    (hone : outer ≠ []) (hine : inner ≠ [])
    (hoh : isHTML (filepathJoin TempalteDir outer) = true)
    (hih : isHTML (filepathJoin TempalteDir inner) = true)
    (hor : site.readRawFile (filepathJoin TempalteDir outer) = .ok outerBody)
    (hir : site.readRawFile (filepathJoin TempalteDir inner) = .ok innerBody)
    (hob : NoMetaBlock outerBody) (hib : NoMetaBlock innerBody) :
    site.loadDocument (fuel + 3) newContext leafPath =
      .ok (replaceAll outerBody innerPlaceholder
            (replaceAll innerBody innerPlaceholder (trimLeft rest)), newContext) := by
  have hnl : 10 ∉ bytes "@template " ++ outer ++ 32 :: inner := by
    intro hmem
    simp [bytes] at hmem
    rcases hmem with h | h
    · simpa [isSpace] using ho 10 h
    · simpa [isSpace] using hi 10 h
  have hlines : blockLines m = [bytes "@template " ++ outer ++ 32 :: inner ++ [10]] := by
    rw [blockLines, hdir]
    exact readLines_single _ hnl
  have hleafMeta : parseMetaWith (fun c p => site.loadLoop (fuel + 2) c p none) newContext
      (metaStart ++ m ++ metaEnd ++ rest) =
      .ok (trimLeft rest, { newContext with TemplateStack := [outer, inner] }) := by
    rw [parseMetaWith_block _ _ m rest hm, hlines]
    simp only [runDirectives, runDirective_template_two _ _ outer inner ho hi hone hine]
    simp [newContext]
  rw [Site.loadDocument, loadLoop_html site (fuel + 2) _ leafPath _ none hleaf hread, hleafMeta]
  simp only [List.getLast?, List.getLast, List.dropLast, substituteInner]
  rw [loadLoop_html site (fuel + 1) _ _ _ _ hih hir, parseMetaWith_noMetaBlock _ _ _ hib]
  simp only [List.getLast?, List.getLast, List.dropLast, substituteInner]
  rw [loadLoop_html site fuel _ _ _ _ hoh hor, parseMetaWith_noMetaBlock _ _ _ hob]
  simp only [List.getLast?, substituteInner]
  rfl

/-- Instance of C1 on `demoSite`: `pages/index.html` declares
`@template outer.html inner.html`. -/
theorem loadDocument_template_lifo_witness :
    demoSite.loadDocument 3 newContext (bytes "pages/index.html") =
      .ok (replaceAll (bytes "<html>\x7b\x7b#INNER_DOCUMENT\x7d\x7d</html>") innerPlaceholder
            (replaceAll (bytes "<div>\x7b\x7b#INNER_DOCUMENT\x7d\x7d</div>") innerPlaceholder
              (trimLeft (bytes "\n<p>Hi</p>"))), newContext) :=
  loadDocument_template_lifo demoSite 0 (bytes "pages/index.html")
    (bytes "\n@template outer.html inner.html\n") (bytes "\n<p>Hi</p>")
    (bytes "outer.html") (bytes "inner.html")
    (bytes "<html>\x7b\x7b#INNER_DOCUMENT\x7d\x7d</html>")
    (bytes "<div>\x7b\x7b#INNER_DOCUMENT\x7d\x7d</div>")
    (by decide) (by rfl) (by decide) (by decide) (by decide) (by decide) (by decide) (by decide)
    (by decide) (by decide) (by rfl) (by rfl) (Or.inl (by decide)) (Or.inl (by decide))

/-! ## Documents without a metadata block -/

/-- C2: on a document that does not begin with the opening marker, or that
begins with it and has no closing marker after it, `parseMeta` returns the
bytes it was given, no error, and the context it was given. -/
theorem parseMeta_without_block (site : Site) (fuel : Nat) (ctx : Context) (raw : Bytes)
    (h : ¬ metaStart <+: raw ∨
      (metaStart <+: raw ∧ ¬ metaEnd <:+: raw.drop metaStart.length)) :
    site.parseMeta fuel ctx raw = .ok (raw, ctx) := by
  apply parseMetaWith_noMetaBlock
  rcases h with h | ⟨_, h⟩
  · exact Or.inl h
  · exact Or.inr h

/-- Instance of C2: an opening marker that is never closed. -/
theorem parseMeta_without_block_witness :
    (¬ metaStart <+: bytes "<!--!\n@title X\n- ->\nBody" ∨
      (metaStart <+: bytes "<!--!\n@title X\n- ->\nBody" ∧
        ¬ metaEnd <:+: (bytes "<!--!\n@title X\n- ->\nBody").drop metaStart.length)) ∧
    demoSite.parseMeta 0 newContext (bytes "<!--!\n@title X\n- ->\nBody") =
      .ok (bytes "<!--!\n@title X\n- ->\nBody", newContext) :=
  ⟨Or.inr ⟨by decide, by decide⟩,
    parseMeta_without_block demoSite 0 newContext _ (Or.inr ⟨by decide, by decide⟩)⟩

/-- C7: a readable path that ends in neither `.md` nor `.html` is returned
as it was read, whatever its bytes, with no error and the context as it was. -/
theorem loadDocument_passthrough (site : Site) (fuel : Nat) (ctx : Context) (path raw : Bytes)
    (hread : site.readRawFile path = .ok raw)
    (hmd : isMarkdown path = false) (hhtml : isHTML path = false) :
    site.loadDocument (fuel + 1) ctx path = .ok (raw, ctx) := by
  simp [Site.loadDocument, Site.loadLoop, hread, hmd, hhtml]

/-- Instance of C7: a `.png` file whose bytes look like a metadata block and
a placeholder. -/
theorem loadDocument_passthrough_witness :
    demoSite.loadDocument 1 { newContext with TemplateStack := [bytes "outer.html"] }
        (bytes "pages/logo.png") =
      .ok (bytes "<!--!\n@title T\n-->\x7b\x7b#INNER_DOCUMENT\x7d\x7d",
        { newContext with TemplateStack := [bytes "outer.html"] }) :=
  loadDocument_passthrough demoSite 0 _ (bytes "pages/logo.png") _ (by rfl) (by decide) (by decide)

/-! ## Variables -/

/-- C3, as the code has it: a metadata block that is the single line `k v`,
with `k` a token other than the three commands, parsed in a fresh context,
returns the text after the block trimmed on the left and sets the variable
named by the whole token `k`, a leading `@` included, to `v`. -/
theorem parseMeta_variable (site : Site) (fuel : Nat) (m rest k v : Bytes)
    (hm : ¬ metaEnd <:+: m) (hdir : trim m = k ++ 32 :: v)
    (hk : Token k) (hv : PlainArg v)
    (hcmd : k ≠ bytes "@template" ∧ k ≠ bytes "@section" ∧ k ≠ bytes "@append") :
    site.parseMeta fuel newContext (metaStart ++ m ++ metaEnd ++ rest) =
      .ok (trimLeft rest, { newContext with Dict := mapSet newContext.Dict k v }) := by
  have hlines : blockLines m = [(k ++ 32 :: v) ++ [10]] := by
    rw [blockLines, hdir]
    exact readLines_single _ (not_mem_directive k v hk hv)
  rw [Site.parseMeta, parseMetaWith_block _ _ m rest hm, hlines]
  simp only [runDirectives,
    runDirective_variable _ _ _ k v (splitCommand_line k v hk hv) hcmd.1 hcmd.2.1 hcmd.2.2]
  rfl

/-- Instance of C3 as amended: the document of the claim yields the body
`Body` and sets the variable `@title`. -/
theorem parseMeta_variable_witness :
    demoSite.parseMeta 0 newContext (bytes "<!--!\n@title X\n-->\nBody") =
      .ok (bytes "Body",
        { newContext with Dict := mapSet newContext.Dict (bytes "@title") (bytes "X") }) :=
  parseMeta_variable demoSite 0 (bytes "\n@title X\n") (bytes "\nBody") (bytes "@title")
    (bytes "X") (by decide) (by decide) (by decide) (by decide) (by decide)

/-- C3 as stated fails: after parsing the document of the claim the variable
`title` is unset; the value `X` is stored under `@title`. -/
theorem parseMeta_title_unset :
    bodyOf (demoSite.parseMeta 0 newContext (bytes "<!--!\n@title X\n-->\nBody")) =
        some (bytes "Body") ∧
      variableOf (demoSite.parseMeta 0 newContext (bytes "<!--!\n@title X\n-->\nBody"))
        (bytes "title") = none ∧
      variableOf (demoSite.parseMeta 0 newContext (bytes "<!--!\n@title X\n-->\nBody"))
        (bytes "@title") = some (bytes "X") := by
  decide

/-- The step of the loop on a line that is no section directive: it succeeds,
keeps every variable that is set, and sets at most the variable named by the
command of the line. -/
theorem runDirective_dict (load : Loader) (ctx : Context) (line : Bytes)
    (hns : ∀ d, splitCommand line = some d → d.1 ≠ bytes "@section" ∧ d.1 ≠ bytes "@append") :
    ∃ ctx1, runDirective load ctx line = .ok ctx1 ∧
      (∀ k w, ctx.Dict k = some w → ctx1.Dict k = some w) ∧
      (∀ k, ctx.Dict k = none → k ≠ bytes "@template" →
        ctx1.Dict k = firstArgument (splitCommand line).toList k) := by
  cases hs : splitCommand line with
  | none =>
    refine ⟨ctx, runDirective_ignored load ctx line hs, fun _ _ h => h, fun k hk _ => ?_⟩
    simp [firstArgument, hk]
  | some d =>
    obtain ⟨c0, c1⟩ := d
    obtain ⟨h2, h3⟩ := hns (c0, c1) hs
    by_cases h1 : c0 = bytes "@template"
    · subst h1
      refine ⟨_, runDirective_template load ctx line c1 hs, fun _ _ h => h, fun k hk hne => ?_⟩
      have : (bytes "@template" == k) = false := by
        simpa using fun e => hne e.symm
      simp [firstArgument, List.find?, this, hk]
    · refine ⟨_, runDirective_variable load ctx line c0 c1 hs h1 h2 h3, ?_, ?_⟩
      · intro k w hk
        by_cases hn : (ctx.Dict c0).isNone
        · have hne : k ≠ c0 := by
            rintro rfl
            simp [hk] at hn
          simp [hn, mapSet, hne, hk]
        · simp [hn, hk]
      · intro k hk _
        by_cases hkc : k = c0
        · subst hkc
          simp [hk, mapSet, firstArgument, List.find?]
        · have : (c0 == k) = false := by simpa using fun e => hkc e.symm
          by_cases hn : (ctx.Dict c0).isNone
          · simp [hn, mapSet, hkc, hk, firstArgument, List.find?, this]
          · simp [hn, hk, firstArgument, List.find?, this]

/-- The loop over lines none of which is a section directive: first write
wins. -/
theorem runDirectives_dict (load : Loader) (lines : List Bytes) :
    ∀ ctx : Context,
      (∀ l ∈ lines, ∀ d, splitCommand l = some d →
        d.1 ≠ bytes "@section" ∧ d.1 ≠ bytes "@append") →
      ∃ ctx1, runDirectives load ctx lines = .ok ctx1 ∧
        (∀ k w, ctx.Dict k = some w → ctx1.Dict k = some w) ∧
        (∀ k, ctx.Dict k = none → k ≠ bytes "@template" →
          ctx1.Dict k = firstArgument (lines.filterMap splitCommand) k) := by
  induction lines with
  | nil =>
    intro ctx _
    exact ⟨ctx, rfl, fun _ _ h => h, fun k hk _ => by simp [firstArgument, hk]⟩
  | cons l ls ih =>
    intro ctx hns
    obtain ⟨ctx1, hrun, hkeep, hset⟩ := runDirective_dict load ctx l (hns l (by simp))
    obtain ⟨ctx2, hrun2, hkeep2, hset2⟩ := ih ctx1 (fun l2 hl2 => hns l2 (by simp [hl2]))
    refine ⟨ctx2, by simp [runDirectives, hrun, hrun2], ?_, ?_⟩
    · intro k w hk
      exact hkeep2 k w (hkeep k w hk)
    · intro k hk hne
      have h1 := hset k hk hne
      cases hs : splitCommand l with
      | none =>
        rw [hs] at h1
        have h1n : ctx1.Dict k = none := by simpa [firstArgument] using h1
        rw [hset2 k h1n hne]
        simp [List.filterMap_cons, hs]
      | some d =>
        rw [hs] at h1
        by_cases hd : d.1 = k
        · have h1s : ctx1.Dict k = some d.2 := by
            simpa [firstArgument, List.find?, hd] using h1
          rw [hkeep2 k d.2 h1s]
          simp [List.filterMap_cons, hs, firstArgument, List.find?, hd]
        · have hb : (d.1 == k) = false := by simpa using hd
          have h1n : ctx1.Dict k = none := by
            simpa [firstArgument, List.find?, hb] using h1
          rw [hset2 k h1n hne]
          simp [List.filterMap_cons, hs, firstArgument, List.find?, hb]

/-- C4: for a metadata block without `@section`/`@append` directive,
`parseMeta` succeeds, every variable that was set keeps its value, and every
variable that was unset holds the argument of the first line of the block
whose command token is its name (and stays unset when there is no such
line). -/
theorem parseMeta_first_write_wins (site : Site) (fuel : Nat) (ctx : Context) (m rest : Bytes)
    (hm : ¬ metaEnd <:+: m)
    (hns : ∀ d ∈ directives m, d.1 ≠ bytes "@section" ∧ d.1 ≠ bytes "@append") :
    ∃ ctx1, site.parseMeta fuel ctx (metaStart ++ m ++ metaEnd ++ rest) =
        .ok (trimLeft rest, ctx1) ∧
      (∀ k w, ctx.Dict k = some w → ctx1.Dict k = some w) ∧
      (∀ k, ctx.Dict k = none → k ≠ bytes "@template" →
        ctx1.Dict k = firstArgument (directives m) k) := by
  have hns1 : ∀ l ∈ blockLines m, ∀ d, splitCommand l = some d →
      d.1 ≠ bytes "@section" ∧ d.1 ≠ bytes "@append" := by
    intro l hl d hd
    exact hns d (by simp only [directives, List.mem_filterMap]; exact ⟨l, hl, hd⟩)
  obtain ⟨ctx1, hrun, hkeep, hset⟩ :=
    runDirectives_dict (site.loadDocument fuel) (blockLines m) ctx hns1
  refine ⟨ctx1, ?_, hkeep, hset⟩
  rw [Site.parseMeta, parseMetaWith_block _ _ m rest hm, hrun]

/-- Instance of C4: of the lines `title A` and `title B` the first wins, and
a variable set before the block keeps its value. -/
theorem parseMeta_first_write_wins_witness :
    ∃ ctx1, demoSite.parseMeta 0
        { newContext with Dict := mapSet newContext.Dict (bytes "author") (bytes "me") }
        (metaStart ++ bytes "\ntitle A\nauthor you\ntitle B\n" ++ metaEnd ++ bytes "\nBody") =
        .ok (trimLeft (bytes "\nBody"), ctx1) ∧
      ctx1.Dict (bytes "author") = some (bytes "me") ∧
      ctx1.Dict (bytes "title") = some (bytes "A") := by
  obtain ⟨ctx1, hrun, hkeep, hset⟩ := parseMeta_first_write_wins demoSite 0
    { newContext with Dict := mapSet newContext.Dict (bytes "author") (bytes "me") }
    (bytes "\ntitle A\nauthor you\ntitle B\n") (bytes "\nBody") (by decide) (by decide)
  exact ⟨ctx1, hrun, hkeep _ _ (by decide),
    (hset (bytes "title") (by decide) (by decide)).trans (by decide)⟩

/-! ## Sections -/

/-- A file without metadata block, loaded with an empty template stack, is
returned after one iteration: as read, or converted when it is markdown; the
context is as it was. -/
theorem loadDocument_plain (site : Site) (fuel : Nat) (ctx : Context) (path raw : Bytes)
    (hr : site.readRawFile path = .ok raw) (hn : NoMetaBlock raw)
    (hs : ctx.TemplateStack = []) :
    site.loadDocument (fuel + 1) ctx path = .ok (plainContent site path raw, ctx) := by
  simp only [Site.loadDocument, Site.loadLoop, hr, parseMetaWith_noMetaBlock _ _ _ hn, hs,
    List.getLast?, substituteInner, plainContent]
  cases hmd : isMarkdown path <;> cases hh : isHTML path <;> simp

theorem plainArg_section (name src : Bytes) (hname : Token name) (hsrc : PlainArg src) :
    PlainArg (name ++ 32 :: src) := by
  obtain ⟨hne, hks⟩ := hname
  obtain ⟨hvne, hnl, _, hvl⟩ := hsrc
  refine ⟨by simp, ?_, ?_, ?_⟩
  · intro h
    simp at h
    rcases h with h | h
    · exact not_mem_of_token name ⟨hne, hks⟩ h
    · exact hnl h
  · cases name with
    | nil => exact absurd rfl hne
    | cons c k => exact hks c (by simp)
  · rw [show name ++ 32 :: src = (name ++ [32]) ++ src by simp, getLastD_append _ _ hvne]
    exact hvl

/-- A line `@section name src` or `@append name src`: when the section is
unset or the command is `@append`, the file is loaded with an empty template
stack, the stack is put back and the content is appended to the section;
otherwise nothing happens. -/
theorem runDirective_section_line (load : Loader) (ctx : Context) (cmd name src : Bytes)
    (hcmd : cmd = bytes "@section" ∨ cmd = bytes "@append")
    (hname : Token name) (hsrc : PlainArg src) :
    runDirective load ctx ((cmd ++ 32 :: (name ++ 32 :: src)) ++ [10]) =
      if (ctx.Sections name).isNone ∨ cmd = bytes "@append" then
        match load { ctx with TemplateStack := [] } (filepathJoin SectionDir src) with
        | .ok (sect, ctx1) =>
          .ok { ctx1 with
                TemplateStack := ctx.TemplateStack
                Sections := mapSet ctx1.Sections name ((ctx1.Sections name).getD [] ++ sect) }
        | .error e => .error e
        | .timeout => .timeout
      else .ok ctx := by
  have hk : Token cmd := by rcases hcmd with h | h <;> (subst h; decide)
  have ht : cmd ≠ bytes "@template" := by rcases hcmd with h | h <;> (subst h; decide)
  have hs := splitCommand_line cmd (name ++ 32 :: src) hk (plainArg_section name src hname hsrc)
  unfold runDirective
  rw [hs]
  simp only [ht, if_false, hcmd, if_true, spaceReSplit2_word name src hname.2 hsrc.2.2.1]

/-- The two lines of the blocks of C5. -/
theorem blockLines_two (m l1 l2 : Bytes) (h : trim m = l1 ++ 10 :: l2)
    (h1 : 10 ∉ l1) (h2 : 10 ∉ l2) : blockLines m = [l1 ++ [10], l2 ++ [10]] := by
  rw [blockLines, h]
  have : l1 ++ 10 :: l2 ++ bytes "\n" = l1 ++ 10 :: (l2 ++ [10]) := by simp [bytes]
  rw [this, readLines_line l1 _ h1, readLines_single l2 h2]

theorem not_mem_section_line (cmd name src : Bytes)
    (hcmd : cmd = bytes "@section" ∨ cmd = bytes "@append")
    (hname : Token name) (hsrc : PlainArg src) : 10 ∉ cmd ++ 32 :: (name ++ 32 :: src) := by
  have hk : Token cmd := by rcases hcmd with h | h <;> (subst h; decide)
  exact not_mem_directive cmd _ hk (plainArg_section name src hname hsrc)

/-- C5: with section `nav` unset and `a` a readable section file without
metadata block, the lines `@section nav a`, `@section nav b` leave in `nav`
the loaded content of `a` alone, and `b` is not even read; the same lines
with `@append`, `b` being readable and without metadata block too, leave the
content of `a` followed by the content of `b`. -/
theorem parseMeta_section_twice (site : Site) (fuel : Nat) (ctx : Context)
    (a b ra m1 m2 rest : Bytes)
    (hnav : ctx.Sections (bytes "nav") = none)
    (ha : PlainArg a) (hb : PlainArg b)
    (hra : site.readRawFile (filepathJoin SectionDir a) = .ok ra) (hna : NoMetaBlock ra)
    (hm1 : ¬ metaEnd <:+: m1) (hm2 : ¬ metaEnd <:+: m2)
    (hd1 : trim m1 = (bytes "@section" ++ 32 :: (bytes "nav" ++ 32 :: a)) ++
      10 :: (bytes "@section" ++ 32 :: (bytes "nav" ++ 32 :: b)))
    (hd2 : trim m2 = (bytes "@append" ++ 32 :: (bytes "nav" ++ 32 :: a)) ++
      10 :: (bytes "@append" ++ 32 :: (bytes "nav" ++ 32 :: b))) :
    (∃ ctx1, site.parseMeta (fuel + 1) ctx (metaStart ++ m1 ++ metaEnd ++ rest) =
        .ok (trimLeft rest, ctx1) ∧
      ctx1.Sections (bytes "nav") = some (plainContent site (filepathJoin SectionDir a) ra)) ∧
    (∀ rb, site.readRawFile (filepathJoin SectionDir b) = .ok rb → NoMetaBlock rb →
      ∃ ctx2, site.parseMeta (fuel + 1) ctx (metaStart ++ m2 ++ metaEnd ++ rest) =
          .ok (trimLeft rest, ctx2) ∧
        ctx2.Sections (bytes "nav") =
          some (plainContent site (filepathJoin SectionDir a) ra ++
            plainContent site (filepathJoin SectionDir b) rb)) := by
  have hnavT : Token (bytes "nav") := by decide
  constructor
  · have hl := blockLines_two m1 _ _ hd1
      (not_mem_section_line _ _ a (Or.inl rfl) hnavT ha)
      (not_mem_section_line _ _ b (Or.inl rfl) hnavT hb)
    rw [Site.parseMeta, parseMetaWith_block _ _ m1 rest hm1, hl]
    simp only [runDirectives]
    rw [runDirective_section_line _ _ _ _ a (Or.inl rfl) hnavT ha]
    simp only [hnav, Option.isNone_none, true_or, if_true]
    rw [loadDocument_plain site fuel _ _ ra hra hna rfl]
    simp only []
    rw [runDirective_section_line _ _ _ _ b (Or.inl rfl) hnavT hb]
    simp only [mapSet, if_true, Option.isNone_some, Bool.false_eq_true, false_or,
      show bytes "@section" ≠ bytes "@append" by decide, if_false]
    exact ⟨_, rfl, by simp [mapSet, hnav]⟩
  · intro rb hrb hnb
    have hl := blockLines_two m2 _ _ hd2
      (not_mem_section_line _ _ a (Or.inr rfl) hnavT ha)
      (not_mem_section_line _ _ b (Or.inr rfl) hnavT hb)
    rw [Site.parseMeta, parseMetaWith_block _ _ m2 rest hm2, hl]
    simp only [runDirectives]
    rw [runDirective_section_line _ _ _ _ a (Or.inr rfl) hnavT ha]
    simp only [or_true, if_true]
    rw [loadDocument_plain site fuel _ _ ra hra hna rfl]
    simp only []
    rw [runDirective_section_line _ _ _ _ b (Or.inr rfl) hnavT hb]
    simp only [or_true, if_true]
    rw [loadDocument_plain site fuel _ _ rb hrb hnb rfl]
    exact ⟨_, rfl, by simp [mapSet, hnav]⟩

/-- Instance of C5 on `demoSite`, whose section files `a.html` and `b.html`
hold `<a>A</a>` and `<b>B</b>`. -/
theorem parseMeta_section_twice_witness :
    (∃ ctx1, demoSite.parseMeta 1 newContext
        (metaStart ++ bytes "\n@section nav a.html\n@section nav b.html\n" ++ metaEnd ++
          bytes "\nBody") = .ok (trimLeft (bytes "\nBody"), ctx1) ∧
      ctx1.Sections (bytes "nav") =
        some (plainContent demoSite (filepathJoin SectionDir (bytes "a.html"))
          (bytes "<a>A</a>"))) ∧
    (∀ rb, demoSite.readRawFile (filepathJoin SectionDir (bytes "b.html")) = .ok rb →
      NoMetaBlock rb →
      ∃ ctx2, demoSite.parseMeta 1 newContext
          (metaStart ++ bytes "\n@append nav a.html\n@append nav b.html\n" ++ metaEnd ++
            bytes "\nBody") = .ok (trimLeft (bytes "\nBody"), ctx2) ∧
        ctx2.Sections (bytes "nav") =
          some (plainContent demoSite (filepathJoin SectionDir (bytes "a.html"))
              (bytes "<a>A</a>") ++
            plainContent demoSite (filepathJoin SectionDir (bytes "b.html")) rb)) :=
  parseMeta_section_twice demoSite 0 newContext (bytes "a.html") (bytes "b.html")
    (bytes "<a>A</a>") (bytes "\n@section nav a.html\n@section nav b.html\n")
    (bytes "\n@append nav a.html\n@append nav b.html\n") (bytes "\nBody")
    (by rfl) (by decide) (by decide) (by rfl) (Or.inl (by decide)) (by decide) (by decide)
    (by decide) (by decide)

/-- The outcome of a `@section`/`@append` line started with another template
stack in the parent context: the same outcome, with that stack. -/
theorem runDirective_section_stack (load : Loader) (ctx : Context) (line cmd0 cmd1 : Bytes)
    (stack : List Bytes) (hs : splitCommand line = some (cmd0, cmd1))
    (hc : cmd0 = bytes "@section" ∨ cmd0 = bytes "@append") :
    runDirective load { ctx with TemplateStack := stack } line =
      match runDirective load ctx line with
      | .ok c => .ok { c with TemplateStack := stack }
      | .error e => .error e
      | .timeout => .timeout := by
  have ht : cmd0 ≠ bytes "@template" := by rcases hc with h | h <;> (subst h; decide)
  unfold runDirective
  simp only [hs, ht, if_false, hc, if_true]
  generalize spaceReSplit2 cmd1 = pair
  match pair with
  | [] => rfl
  | [_] => rfl
  | _ :: _ :: _ :: _ => rfl
  | [name, src] =>
    simp only []
    by_cases hcond : (ctx.Sections name).isNone ∨ cmd0 = bytes "@append"
    · simp only [hcond, if_true]
      cases load { ctx with TemplateStack := [] } (filepathJoin SectionDir src) <;> rfl
    · simp only [hcond, if_false]

/-- C9: a `@section`/`@append` line that succeeds leaves the template stack
as it was before the line, and with any other template stack in the parent
context it succeeds too, with the same variables and sections: the nested
load starts with an empty stack and never sees the stack of the parent. -/
theorem runDirective_section_isolated (site : Site) (fuel : Nat) (ctx ctx1 : Context)
    (line cmd0 cmd1 : Bytes)
    (hs : splitCommand line = some (cmd0, cmd1))
    (hc : cmd0 = bytes "@section" ∨ cmd0 = bytes "@append")
    (hrun : runDirective (site.loadDocument fuel) ctx line = .ok ctx1) :
    ctx1.TemplateStack = ctx.TemplateStack ∧
      ∀ stack : List Bytes,
        runDirective (site.loadDocument fuel) { ctx with TemplateStack := stack } line =
          .ok { ctx1 with TemplateStack := stack } := by
  constructor
  · have h := runDirective_section_stack (site.loadDocument fuel) ctx line cmd0 cmd1
      ctx.TemplateStack hs hc
    rw [hrun] at h
    have h2 : Outcome.ok ctx1 = Outcome.ok { ctx1 with TemplateStack := ctx.TemplateStack } := h
    injection h2 with h2
    have h3 := congrArg Context.TemplateStack h2
    exact h3
  · intro stack
    rw [runDirective_section_stack (site.loadDocument fuel) ctx line cmd0 cmd1 stack hs hc, hrun]

/-- Instance of C9 on `demoSite`: the line `@section nav a.html` in a context
whose template stack holds `outer.html`. -/
theorem runDirective_section_isolated_witness :
    ({ newContext with
        TemplateStack := [bytes "outer.html"]
        Sections := mapSet newContext.Sections (bytes "nav") (bytes "<a>A</a>") } :
          Context).TemplateStack = [bytes "outer.html"] ∧
      ∀ stack : List Bytes,
        runDirective (demoSite.loadDocument 1) { newContext with TemplateStack := stack }
            (bytes "@section nav a.html\n") =
          .ok { newContext with
                TemplateStack := stack
                Sections := mapSet newContext.Sections (bytes "nav") (bytes "<a>A</a>") } :=
  runDirective_section_isolated demoSite 1
    { newContext with TemplateStack := [bytes "outer.html"] }
    { newContext with
      TemplateStack := [bytes "outer.html"]
      Sections := mapSet newContext.Sections (bytes "nav") (bytes "<a>A</a>") }
    (bytes "@section nav a.html\n") (bytes "@section") (bytes "nav a.html")
    (by decide) (by decide) (by rfl)

/-! ## Section resolution -/

theorem sectionPass_skip (sections : Bytes → Option Bytes) (k : Nat) (s : Bytes) :
    sectionPass sections k s = sectionPass sections 0 (s.drop k) := by
  induction s generalizing k with
  | nil => cases k <;> simp [sectionPass]
  | cons c s ih =>
    cases k with
    | zero => rfl
    | succ k => simpa [sectionPass] using ih k

theorem sectionMatch_of_ne (c : Nat) (s : Bytes) (h : c ≠ 123) : sectionMatch (c :: s) = none := by
  unfold sectionMatch
  split
  · rename_i heq
    injection heq with h1 _
    exact absurd h1 h
  · rfl

theorem sectionMatch_of_no_open (s : Bytes) (h : ¬ [123, 123] <+: s) : sectionMatch s = none := by
  unfold sectionMatch
  split
  · exact absurd ⟨_, rfl⟩ h
  · rfl

/-- A pass copies text that has no opening brace. -/
theorem sectionPass_plain (sections : Bytes → Option Bytes) (s t : Bytes)
    (h : ∀ c ∈ s, c ≠ 123) :
    sectionPass sections 0 (s ++ t) =
      (s ++ (sectionPass sections 0 t).1, (sectionPass sections 0 t).2) := by
  induction s with
  | nil => rfl
  | cons c s ih =>
    have hc : c ≠ 123 := h c (by simp)
    have := ih (fun x hx => h x (by simp [hx]))
    simp [sectionPass, sectionMatch_of_ne c _ hc, this]

theorem sectionPass_plain_all (sections : Bytes → Option Bytes) (s : Bytes)
    (h : ∀ c ∈ s, c ≠ 123) : sectionPass sections 0 s = (s, false) := by
  have := sectionPass_plain sections s [] h
  rw [List.append_nil] at this
  rw [this]
  simp [sectionPass]

/-- A pass leaves a text without two opening braces in a row as it is and
does not set `replaced`. -/
theorem sectionPass_no_open (sections : Bytes → Option Bytes) (t : Bytes)
    (h : ¬ [123, 123] <:+: t) : sectionPass sections 0 t = (t, false) := by
  induction t with
  | nil => rfl
  | cons c t ih =>
    have h1 : ¬ [123, 123] <+: c :: t := fun hp => h hp.isInfix
    have h2 : ¬ [123, 123] <:+: t := fun hi => h (hi.trans (List.suffix_cons c t).isInfix)
    simp [sectionPass, sectionMatch_of_no_open _ h1, ih h2]

/-- The expression matches a placeholder written with a name that is not
empty and has no closing brace. -/
theorem sectionMatch_placeholder (name rest : Bytes) (hne : name ≠ [])
    (h : ∀ c ∈ name, c ≠ 125) :
    sectionMatch (123 :: 123 :: 35 :: (name ++ 125 :: 125 :: rest)) = some (name, rest) := by
  have ht : (name ++ 125 :: 125 :: rest).takeWhile (fun c => c != 125) = name := by
    have : ∀ n : Bytes, (∀ c ∈ n, c ≠ 125) →
        (n ++ 125 :: 125 :: rest).takeWhile (fun c => c != 125) = n := by
      intro n hn
      induction n with
      | nil => simp
      | cons x n ih =>
        have hx : (x != 125) = true := by simpa using hn x (by simp)
        simp [List.takeWhile, hx, ih (fun y hy => hn y (by simp [hy]))]
    exact this name h
  have hd : (name ++ 125 :: 125 :: rest).dropWhile (fun c => c != 125) = 125 :: 125 :: rest := by
    have : ∀ n : Bytes, (∀ c ∈ n, c ≠ 125) →
        (n ++ 125 :: 125 :: rest).dropWhile (fun c => c != 125) = 125 :: 125 :: rest := by
      intro n hn
      induction n with
      | nil => simp
      | cons x n ih =>
        have hx : (x != 125) = true := by simpa using hn x (by simp)
        simp [List.dropWhile, hx, ih (fun y hy => hn y (by simp [hy]))]
    exact this name h
  unfold sectionMatch
  simp only [ht, hd]
  cases name with
  | nil => exact absurd rfl hne
  | cons x n => rfl

/-- A pass at a placeholder: the content of the section when it is there
(and `replaced` is set), nothing when it is not; the pass goes on after the
placeholder. -/
theorem sectionPass_placeholder (sections : Bytes → Option Bytes) (name rest : Bytes)
    (hne : name ≠ []) (h : ∀ c ∈ name, c ≠ 125) :
    sectionPass sections 0 (123 :: 123 :: 35 :: (name ++ 125 :: 125 :: rest)) =
      match sections name with
      | some sect => (sect ++ (sectionPass sections 0 rest).1, true)
      | none => sectionPass sections 0 rest := by
  have hdrop : (123 :: 35 :: (name ++ 125 :: 125 :: rest)).drop (name.length + 4) = rest := by
    simp [List.drop_append]
  rw [sectionPass, sectionMatch_placeholder name rest hne h]
  simp only []
  rw [sectionPass_skip, hdrop]

/-- C6: with `pre`, `mid`, `post` and the content `N` of section `nav` free
of braces, and no section named `missing`, the resolution loop on
`pre {{#nav}} mid {{#missing}} post` ends (two passes) and yields
`pre N mid post`. -/
theorem resolveSections_nav_missing (sections : Bytes → Option Bytes) (fuel : Nat)
    (pre mid post N : Bytes)
    (hpre : ∀ c ∈ pre, c ≠ 123 ∧ c ≠ 125) (hmid : ∀ c ∈ mid, c ≠ 123 ∧ c ≠ 125)
    (hpost : ∀ c ∈ post, c ≠ 123 ∧ c ≠ 125) (hN : ∀ c ∈ N, c ≠ 123 ∧ c ≠ 125)
    (hnav : sections (bytes "nav") = some N) (hmissing : sections (bytes "missing") = none) :
    resolveSections sections (fuel + 2)
        (pre ++ bytes "\x7b\x7b#nav\x7d\x7d" ++ mid ++ bytes "\x7b\x7b#missing\x7d\x7d" ++ post) =
      some (pre ++ N ++ mid ++ post) := by
  have htext : pre ++ bytes "\x7b\x7b#nav\x7d\x7d" ++ mid ++ bytes "\x7b\x7b#missing\x7d\x7d" ++ post =
      pre ++ (123 :: 123 :: 35 :: (bytes "nav" ++ 125 :: 125 ::
        (mid ++ (123 :: 123 :: 35 :: (bytes "missing" ++ 125 :: 125 :: post))))) := by
    simp [bytes]
  have hp3 : sectionPass sections 0 post = (post, false) :=
    sectionPass_plain_all sections post (fun c hc => (hpost c hc).1)
  have hp2 : sectionPass sections 0
      (mid ++ (123 :: 123 :: 35 :: (bytes "missing" ++ 125 :: 125 :: post))) =
      (mid ++ post, false) := by
    rw [sectionPass_plain sections mid _ (fun c hc => (hmid c hc).1),
      sectionPass_placeholder sections (bytes "missing") _ (by decide) (by decide), hmissing]
    simp only [hp3]
  have hp1 : sectionPass sections 0 (pre ++ (123 :: 123 :: 35 :: (bytes "nav" ++ 125 :: 125 ::
      (mid ++ (123 :: 123 :: 35 :: (bytes "missing" ++ 125 :: 125 :: post)))))) =
      (pre ++ N ++ mid ++ post, true) := by
    rw [sectionPass_plain sections pre _ (fun c hc => (hpre c hc).1),
      sectionPass_placeholder sections (bytes "nav") _ (by decide) (by decide), hnav]
    simp only [hp2, List.append_assoc]
  have hq : sectionPass sections 0 (pre ++ N ++ mid ++ post) = (pre ++ N ++ mid ++ post, false) := by
    apply sectionPass_plain_all
    intro c hc
    simp only [List.mem_append] at hc
    rcases hc with ((hc | hc) | hc) | hc
    · exact (hpre c hc).1
    · exact (hN c hc).1
    · exact (hmid c hc).1
    · exact (hpost c hc).1
  rw [htext]
  simp only [resolveSections, hp1, hq, if_true, Bool.false_eq_true, if_false]

/-- Instance of C6. -/
theorem resolveSections_nav_missing_witness :
    resolveSections (mapSet (fun _ => none) (bytes "nav") (bytes "<nav/>")) 2
        (bytes "<body>" ++ bytes "\x7b\x7b#nav\x7d\x7d" ++ bytes "<hr>" ++
          bytes "\x7b\x7b#missing\x7d\x7d" ++ bytes "</body>") =
      some (bytes "<body>" ++ bytes "<nav/>" ++ bytes "<hr>" ++ bytes "</body>") :=
  resolveSections_nav_missing _ 0 (bytes "<body>") (bytes "<hr>") (bytes "</body>")
    (bytes "<nav/>") (by decide) (by decide) (by decide) (by decide) (by rfl) (by rfl)

/-- C8, as the code has it: a readable `.html` file that does not begin with
the opening marker and has no two opening braces in a row reaches the
template library unchanged: `loadDocument` from a fresh context returns its
bytes and leaves the fresh context (empty template stack), section resolution
returns them after one pass, and `renderDocument` returns what the template
library makes of exactly these bytes and the empty variables; so it returns
the file where the library writes these bytes unchanged, and only there. -/
theorem renderDocument_hands_over_file (site : Site) (fuel : Nat) (path raw : Bytes)
    (hh : isHTML path = true) (hr : site.readRawFile path = .ok raw)
    (hstart : ¬ metaStart <+: raw) (hopen : ¬ bytes "\x7b\x7b" <:+: raw) :
    site.loadDocument (fuel + 1) newContext path = .ok (raw, newContext) ∧
      resolveSections newContext.Sections 1 raw = some raw ∧
      site.renderDocument (fuel + 1) path =
        (match site.executeTemplate raw newContext.Dict with
          | .ok out => .ok out
          | .error e => .error e) ∧
      (site.renderDocument (fuel + 1) path = .ok raw ↔
        site.executeTemplate raw newContext.Dict = .ok raw) := by
  have hload : site.loadDocument (fuel + 1) newContext path = .ok (raw, newContext) := by
    have := loadDocument_plain site fuel newContext path raw hr (Or.inl hstart) rfl
    simpa [plainContent, isHTML_not_isMarkdown path hh] using this
  have hpass : ∀ secs, sectionPass secs 0 raw = (raw, false) :=
    fun secs => sectionPass_no_open secs raw hopen
  have hres : ∀ f secs, resolveSections secs (f + 1) raw = some raw := by
    intro f secs
    simp [resolveSections, hpass]
  have hrender : site.renderDocument (fuel + 1) path =
      (match site.executeTemplate raw newContext.Dict with
        | .ok out => .ok out
        | .error e => .error e) := by
    simp only [Site.renderDocument, hload, hres]
  refine ⟨hload, hres 0 _, hrender, ?_⟩
  rw [hrender]
  cases hx : site.executeTemplate raw newContext.Dict with
  | ok out =>
    constructor
    · intro h
      injection h with h
      rw [h]
    · intro h
      injection h with h
      rw [h]
  | error e =>
    constructor
    · intro h
      cases h
    · intro h
      cases h

/-- Instance of C8 as amended on `noteSite`: the page without a comment
reaches the template library byte for byte and is returned as it is. -/
theorem renderDocument_hands_over_file_witness :
    noteSite.loadDocument 1 newContext (bytes "pages/plain.html") =
        .ok (bytes "<p>a</p>", newContext) ∧
      resolveSections newContext.Sections 1 (bytes "<p>a</p>") = some (bytes "<p>a</p>") ∧
      noteSite.renderDocument 1 (bytes "pages/plain.html") = .ok (bytes "<p>a</p>") :=
  have h := renderDocument_hands_over_file noteSite 0 (bytes "pages/plain.html")
    (bytes "<p>a</p>") (by decide) (by rfl) (by decide) (by decide)
  ⟨h.1, h.2.1, h.2.2.2.2 (by rfl)⟩

/-- C8 as stated fails: `pages/note.html` of `noteSite` is a readable `.html`
file that does not begin with the opening marker and has no two opening
braces in a row, and the template library leaves out its comment:
`renderDocument` returns `<p>a</p>`, which is not the file. -/
theorem renderDocument_drops_comment :
    isHTML (bytes "pages/note.html") = true ∧
      noteSite.readRawFile (bytes "pages/note.html") = .ok (bytes "<p>a<!-- note --></p>") ∧
      ¬ metaStart <+: bytes "<p>a<!-- note --></p>" ∧
      ¬ bytes "\x7b\x7b" <:+: bytes "<p>a<!-- note --></p>" ∧
      noteSite.renderDocument 1 (bytes "pages/note.html") = .ok (bytes "<p>a</p>") ∧
      bytes "<p>a</p>" ≠ bytes "<p>a<!-- note --></p>" :=
  ⟨by decide, rfl, by decide, by decide, by rfl, by decide⟩

/-- C10 on the code: with section `a` set and no section `x`, the loop on
`{{{{#x}}#a}}` stops after one pass, which deletes `{{#x}}` without setting
`replaced`; the text it returns is the placeholder `{{#a}}`, which one more
pass would replace.  The page `pages/nested.html` of `demoSite` is rendered
so: what reaches the template library is `{{#a}}`. -/
theorem resolveSections_leaves_placeholder :
    resolveSections (mapSet (fun _ => none) (bytes "a") (bytes "<a>A</a>")) 1
        (bytes "\x7b\x7b\x7b\x7b#x\x7d\x7d#a\x7d\x7d") = some (bytes "\x7b\x7b#a\x7d\x7d") ∧
      sectionMatch (bytes "\x7b\x7b#a\x7d\x7d") = some (bytes "a", []) ∧
      sectionPass (mapSet (fun _ => none) (bytes "a") (bytes "<a>A</a>")) 0
        (bytes "\x7b\x7b#a\x7d\x7d") = (bytes "<a>A</a>", true) ∧
      demoSite.renderDocument 2 (bytes "pages/nested.html") =
        .ok (bytes "\x7b\x7b#a\x7d\x7d") :=
  ⟨by decide, by decide, by decide, by rfl⟩

/-! ## The template stack at the return of `loadDocument` -/

/-- Where the loop of `loadDocument` returns: with an empty template stack, or
at the extension test, on the path it was entered with or on the path of a
template it popped; there the bytes read are returned as they are. -/
theorem loadLoop_return (site : Site) :
    ∀ (fuel : Nat) (ctx : Context) (path : Bytes) (inner : Option Bytes) (body : Bytes)
      (ctx1 : Context),
      site.loadLoop fuel ctx path inner = .ok (body, ctx1) →
      ctx1.TemplateStack = [] ∨
        (ctx1 = ctx ∧ isMarkdown path = false ∧ isHTML path = false ∧
          site.readRawFile path = .ok body) ∨
        (∃ name, isMarkdown (filepathJoin TempalteDir name) = false ∧
          isHTML (filepathJoin TempalteDir name) = false ∧
          site.readRawFile (filepathJoin TempalteDir name) = .ok body) := by
  intro fuel
  induction fuel with
  | zero =>
    intro ctx path inner body ctx1 h
    simp [Site.loadLoop] at h
  | succ fuel ih =>
    intro ctx path inner body ctx1 h
    rw [Site.loadLoop] at h
    cases hr : site.readRawFile path with
    | error e => simp [hr] at h
    | ok raw =>
      simp only [hr] at h
      by_cases hop : (!(isMarkdown path || isHTML path)) = true
      · simp only [hop, if_true] at h
        injection h with h
        injection h with h1 h2
        subst h1 h2
        simp only [Bool.not_eq_true', Bool.or_eq_false_iff] at hop
        exact Or.inr (Or.inl ⟨rfl, hop.1, hop.2, rfl⟩)
      · simp only [hop, if_false] at h
        cases hp : parseMetaWith (fun c p => site.loadLoop fuel c p none) ctx raw with
        | error e => simp [hp] at h
        | timeout => simp [hp] at h
        | ok r =>
          obtain ⟨b, c1⟩ := r
          simp only [hp] at h
          cases hg : c1.TemplateStack.getLast? with
          | none =>
            simp only [hg] at h
            injection h with h
            injection h with _ h2
            subst h2
            exact Or.inl (List.getLast?_eq_none_iff.mp hg)
          | some t =>
            simp only [hg] at h
            rcases ih _ _ _ _ _ h with h1 | ⟨_, h2, h3, h4⟩ | h5
            · exact Or.inl h1
            · exact Or.inr (Or.inr ⟨t, h2, h3, h4⟩)
            · exact Or.inr (Or.inr h5)

/-- C12, as the code has it: when `loadDocument`, started from a fresh context,
returns successfully, the template stack is empty, or the call ended at a
template whose path ends in neither `.md` nor `.html`: the bytes of that file
are returned as they are and the names left on the stack are not applied. -/
theorem loadDocument_stack_at_return (site : Site) (fuel : Nat) (path body : Bytes)
    (ctx1 : Context) (h : site.loadDocument fuel newContext path = .ok (body, ctx1)) :
    ctx1.TemplateStack = [] ∨
      ∃ name, isMarkdown (filepathJoin TempalteDir name) = false ∧
        isHTML (filepathJoin TempalteDir name) = false ∧
        site.readRawFile (filepathJoin TempalteDir name) = .ok body := by
  rcases loadLoop_return site fuel newContext path none body ctx1 h with h1 | ⟨h2, _⟩ | h3
  · exact Or.inl h1
  · exact Or.inl (by rw [h2]; rfl)
  · exact Or.inr h3

/-- Instance of C12 as amended on `chainSite`: `pages/raw.html` returns with
`a.txt` on the stack, and the bytes returned are those of the template
`b.txt`, whose path ends in neither `.md` nor `.html`. -/
theorem loadDocument_stack_at_return_witness :
    ({ newContext with TemplateStack := [bytes "a.txt"] } : Context).TemplateStack = [] ∨
      ∃ name, isMarkdown (filepathJoin TempalteDir name) = false ∧
        isHTML (filepathJoin TempalteDir name) = false ∧
        chainSite.readRawFile (filepathJoin TempalteDir name) =
          .ok (bytes "<b>\x7b\x7b#INNER_DOCUMENT\x7d\x7d</b>") :=
  loadDocument_stack_at_return chainSite 2 (bytes "pages/raw.html")
    (bytes "<b>\x7b\x7b#INNER_DOCUMENT\x7d\x7d</b>")
    { newContext with TemplateStack := [bytes "a.txt"] } (by rfl)

/-- C12 as stated fails: `pages/raw.html` of `chainSite` declares
`@template a.txt b.txt`; `loadDocument` from a fresh context returns the raw
bytes of `templates/b.txt` and leaves `a.txt` on the template stack. -/
theorem loadDocument_stack_not_empty :
    bodyOf (chainSite.loadDocument 2 newContext (bytes "pages/raw.html")) =
        some (bytes "<b>\x7b\x7b#INNER_DOCUMENT\x7d\x7d</b>") ∧
      stackOf (chainSite.loadDocument 2 newContext (bytes "pages/raw.html")) =
        some [bytes "a.txt"] := by
  decide

/-! ## A first `@section` -/

/-- C13, as the code has it: a line `@section name src` in a context where
`name` is unset, whose nested load succeeds, leaves in `sections[name]` what
the nested load left there followed by the bytes the nested load returned;
these are exactly the returned bytes when the nested load left `name` unset. -/
theorem runDirective_first_section (site : Site) (fuel : Nat) (ctx ctx1 : Context)
    (name src sect : Bytes) (hname : Token name) (hsrc : PlainArg src)
    (habs : ctx.Sections name = none)
    (hload : site.loadDocument fuel { ctx with TemplateStack := [] }
      (filepathJoin SectionDir src) = .ok (sect, ctx1)) :
    ∃ ctx2, runDirective (site.loadDocument fuel) ctx
        ((bytes "@section" ++ 32 :: (name ++ 32 :: src)) ++ [10]) = .ok ctx2 ∧
      ctx2.Sections name = some ((ctx1.Sections name).getD [] ++ sect) ∧
      (ctx1.Sections name = none → ctx2.Sections name = some sect) := by
  rw [runDirective_section_line _ _ _ name src (Or.inl rfl) hname hsrc]
  simp only [habs, Option.isNone_none, true_or, if_true, hload]
  refine ⟨_, rfl, by simp [mapSet], fun h => by simp [mapSet, h]⟩

/-- Instance of C13 as amended on `demoSite`: `@section nav a.html` in a fresh
context. -/
theorem runDirective_first_section_witness :
    ∃ ctx2, runDirective (demoSite.loadDocument 1) newContext
        ((bytes "@section" ++ 32 :: (bytes "nav" ++ 32 :: bytes "a.html")) ++ [10]) = .ok ctx2 ∧
      ctx2.Sections (bytes "nav") =
        some ((newContext.Sections (bytes "nav")).getD [] ++ bytes "<a>A</a>") ∧
      (newContext.Sections (bytes "nav") = none →
        ctx2.Sections (bytes "nav") = some (bytes "<a>A</a>")) :=
  runDirective_first_section demoSite 1 newContext newContext (bytes "nav") (bytes "a.html")
    (bytes "<a>A</a>") (by decide) (by decide) (by rfl) (by rfl)

/-- C13 as stated fails: on `chainSite` the file `sections/outer.html` itself
declares `@section nav inner.html`.  The line `@section nav outer.html`, run
in a fresh context, has a nested load that returns `A`, and leaves `BA` in
`sections[nav]`: the `B` that the nested load stored comes first. -/
theorem runDirective_first_section_appends :
    bodyOf (chainSite.loadDocument 2 newContext (bytes "sections/outer.html")) =
        some (bytes "A") ∧
      sectionOf (chainSite.parseMeta 2 newContext
        (bytes "<!--!\n@section nav outer.html\n-->\nP")) (bytes "nav") = some (bytes "BA") := by
  decide

/-! ## Outcomes of the loop over the lines -/

/-- A line fares as the section load it makes: without a load it succeeds,
and with a load it succeeds, fails with the error of the load or runs out of
fuel as the load does. -/
theorem runDirective_by_load (load : Loader) (ctx : Context) (line : Bytes) :
    match sectionLoadOf ctx line with
    | none => ∃ ctx1, runDirective load ctx line = .ok ctx1
    | some (c, p) =>
      match load c p with
      | .ok _ => ∃ ctx1, runDirective load ctx line = .ok ctx1
      | .error e => runDirective load ctx line = .error e
      | .timeout => runDirective load ctx line = .timeout := by
  unfold sectionLoadOf runDirective
  cases hs : splitCommand line with
  | none => exact ⟨ctx, rfl⟩
  | some d =>
    obtain ⟨cmd0, cmd1⟩ := d
    simp only []
    by_cases h1 : cmd0 = bytes "@template"
    · have hn : ¬ (cmd0 = bytes "@section" ∨ cmd0 = bytes "@append") := by
        subst h1
        decide
      simp only [h1, if_true, hn, if_false]
      exact ⟨_, rfl⟩
    · by_cases h2 : cmd0 = bytes "@section" ∨ cmd0 = bytes "@append"
      · simp only [h1, if_false, h2, if_true]
        generalize spaceReSplit2 cmd1 = pair
        match pair with
        | [] => exact ⟨ctx, rfl⟩
        | [_] => exact ⟨ctx, rfl⟩
        | _ :: _ :: _ :: _ => exact ⟨ctx, rfl⟩
        | [name, src] =>
          simp only []
          by_cases hc : (ctx.Sections name).isNone ∨ cmd0 = bytes "@append"
          · simp only [hc, if_true]
            cases load { ctx with TemplateStack := [] } (filepathJoin SectionDir src) with
            | ok r => exact ⟨_, rfl⟩
            | error e => rfl
            | timeout => rfl
          · simp only [hc, if_false]
            exact ⟨ctx, rfl⟩
      · simp only [h1, if_false, h2]
        split <;> exact ⟨_, rfl⟩

/-- Every load of the list is a load of a path under `sections/`, made with
an empty template stack. -/
theorem sectionLoads_shape (load : Loader) (lines : List Bytes) :
    ∀ ctx : Context, ∀ cp ∈ sectionLoads load ctx lines,
      cp.1.TemplateStack = [] ∧ ∃ src, cp.2 = filepathJoin SectionDir src := by
  induction lines with
  | nil => intro ctx cp h; simp [sectionLoads] at h
  | cons l ls ih =>
    intro ctx cp h
    rw [sectionLoads, List.mem_append] at h
    rcases h with h | h
    · rw [Option.mem_toList] at h
      unfold sectionLoadOf at h
      split at h
      · split at h
        · split at h
          · split at h
            · have := Option.some.inj h
              subst this
              exact ⟨rfl, _, rfl⟩
            · exact absurd h (by simp)
          · exact absurd h (by simp)
        · exact absurd h (by simp)
      · exact absurd h (by simp)
    · cases hr : runDirective load ctx l with
      | ok c1 =>
        rw [hr] at h
        exact ih c1 cp h
      | error e => simp [hr] at h
      | timeout => simp [hr] at h

/-- An error of the loop is the error of one of the loads it made. -/
theorem runDirectives_error_load (load : Loader) (lines : List Bytes) (e : Error) :
    ∀ ctx : Context, runDirectives load ctx lines = .error e →
      ∃ cp ∈ sectionLoads load ctx lines, load cp.1 cp.2 = .error e := by
  induction lines with
  | nil => intro ctx h; simp [runDirectives] at h
  | cons l ls ih =>
    intro ctx h
    rw [runDirectives] at h
    have hb := runDirective_by_load load ctx l
    cases hr : runDirective load ctx l with
    | ok c1 =>
      simp only [hr] at h
      obtain ⟨cp, hcp, he⟩ := ih c1 h
      exact ⟨cp, by rw [sectionLoads, hr]; exact List.mem_append_right _ hcp, he⟩
    | timeout => simp [hr] at h
    | error e2 =>
      simp only [hr] at h
      injection h with h
      subst h
      cases hl : sectionLoadOf ctx l with
      | none =>
        rw [hl] at hb
        obtain ⟨c1, hc1⟩ := hb
        rw [hr] at hc1
        exact absurd hc1 (by simp)
      | some cp =>
        obtain ⟨c, p⟩ := cp
        rw [hl] at hb
        simp only [] at hb
        refine ⟨(c, p), by rw [sectionLoads, hl]; simp, ?_⟩
        cases hload : load c p with
        | ok r =>
          rw [hload] at hb
          obtain ⟨c1, hc1⟩ := hb
          rw [hr] at hc1
          exact absurd hc1 (by simp)
        | timeout =>
          rw [hload, hr] at hb
          exact absurd hb (by simp)
        | error e3 =>
          rw [hload, hr] at hb
          injection hb with hb
          rw [hb]

/-- The loop succeeds when the loads it makes succeed. -/
theorem runDirectives_ok_of_loads (load : Loader) (lines : List Bytes) :
    ∀ ctx : Context,
      (∀ cp ∈ sectionLoads load ctx lines, ∃ r, load cp.1 cp.2 = .ok r) →
      ∃ ctx1, runDirectives load ctx lines = .ok ctx1 := by
  induction lines with
  | nil => intro ctx _; exact ⟨ctx, rfl⟩
  | cons l ls ih =>
    intro ctx hl
    have hb := runDirective_by_load load ctx l
    have hstep : ∃ c1, runDirective load ctx l = .ok c1 := by
      cases hsl : sectionLoadOf ctx l with
      | none =>
        rw [hsl] at hb
        exact hb
      | some cp =>
        obtain ⟨c, p⟩ := cp
        rw [hsl] at hb
        simp only [] at hb
        obtain ⟨r, hr⟩ := hl (c, p) (by rw [sectionLoads, hsl]; simp)
        simp only [] at hr
        rw [hr] at hb
        exact hb
    obtain ⟨c1, h1⟩ := hstep
    obtain ⟨c2, h2⟩ := ih c1 (fun cp hcp =>
      hl cp (by rw [sectionLoads, h1]; exact List.mem_append_right _ hcp))
    exact ⟨c2, by simp [runDirectives, h1, h2]⟩

theorem exists_of_isOk {α : Type} (o : Outcome α) (h : isOk o = true) : ∃ r, o = .ok r := by
  cases o with
  | ok r => exact ⟨r, rfl⟩
  | error e => simp [isOk] at h
  | timeout => simp [isOk] at h

/-- The loads of a list succeed when each is seen to succeed. -/
theorem loads_ok_of_all (load : Loader) (loads : List (Context × Bytes))
    (h : loads.all (fun cp => isOk (load cp.1 cp.2)) = true) :
    ∀ cp ∈ loads, ∃ r, load cp.1 cp.2 = .ok r := by
  intro cp hcp
  exact exists_of_isOk _ (List.all_eq_true.mp h cp hcp)

theorem runDirectives_no_load (load : Loader) (lines : List Bytes) :
    ∀ ctx : Context, noSectionLoad ctx.Sections lines = true →
      ∃ ctx1, runDirectives load ctx lines = .ok ctx1 ∧ ctx1.Sections = ctx.Sections := by
  induction lines with
  | nil => intro ctx _; exact ⟨ctx, rfl, rfl⟩
  | cons l ls ih =>
    intro ctx h
    rw [noSectionLoad, Bool.and_eq_true] at h
    obtain ⟨h1, h2⟩ := h
    have hstep : ∃ c1, runDirective load ctx l = .ok c1 ∧ c1.Sections = ctx.Sections := by
      unfold runDirective
      cases hs : splitCommand l with
      | none => exact ⟨ctx, rfl, rfl⟩
      | some d =>
        obtain ⟨cmd0, cmd1⟩ := d
        simp only [hs] at h1 ⊢
        by_cases ht : cmd0 = bytes "@template"
        · simp [ht]
        · by_cases hc : cmd0 = bytes "@section" ∨ cmd0 = bytes "@append"
          · simp only [ht, if_false, hc, if_true] at h1 ⊢
            generalize spaceReSplit2 cmd1 = pair at h1 ⊢
            match pair with
            | [] => exact ⟨ctx, rfl, rfl⟩
            | [_] => exact ⟨ctx, rfl, rfl⟩
            | _ :: _ :: _ :: _ => exact ⟨ctx, rfl, rfl⟩
            | [name, src] =>
              simp only [Bool.and_eq_true, decide_eq_true_eq] at h1
              obtain ⟨hsec, hset⟩ := h1
              have hn : ¬ ((ctx.Sections name).isNone = true ∨ cmd0 = bytes "@append") := by
                rintro (hx | hx)
                · cases hv : ctx.Sections name <;> simp [hv] at hset hx
                · rw [hsec] at hx
                  exact absurd hx (by decide)
              simp only []
              rw [if_neg hn]
              exact ⟨ctx, rfl, rfl⟩
          · simp only [ht, if_false, hc]
            split <;> exact ⟨_, rfl, rfl⟩
    obtain ⟨c1, hr, hsame⟩ := hstep
    obtain ⟨c2, hr2, hsame2⟩ := ih c1 (by rw [hsame]; exact h2)
    exact ⟨c2, by simp [runDirectives, hr, hr2], hsame2.trans hsame⟩

/-- The two ways `parseMeta` ends: it gives the document back, or it returns
what the loop over the lines of its block yields. -/
theorem parseMetaWith_cases (load : Loader) (ctx : Context) (raw : Bytes) :
    parseMetaWith load ctx raw = .ok (raw, ctx) ∨
      ∃ part0 part1, parseMetaWith load ctx raw =
        match runDirectives load ctx (blockLines part0) with
        | .ok ctx1 => .ok (trimLeft part1, ctx1)
        | .error e => .error e
        | .timeout => .timeout := by
  unfold parseMetaWith
  split
  · exact Or.inl rfl
  · generalize splitN2 (raw.drop metaStart.length) metaEnd = parts
    match parts with
    | [] => exact Or.inl rfl
    | [_] => exact Or.inl rfl
    | _ :: _ :: _ :: _ => exact Or.inl rfl
    | [part0, part1] => exact Or.inr ⟨part0, part1, rfl⟩

/-- The outcome of `parseMeta` is the outcome of the loop over its lines. -/
theorem parseMetaWith_metaLines (load : Loader) (ctx : Context) (raw : Bytes) :
    ∃ body, parseMetaWith load ctx raw =
      match runDirectives load ctx (metaLines raw) with
      | .ok ctx1 => .ok (body, ctx1)
      | .error e => .error e
      | .timeout => .timeout := by
  unfold parseMetaWith metaLines
  split
  · exact ⟨raw, rfl⟩
  · generalize splitN2 (raw.drop metaStart.length) metaEnd = parts
    match parts with
    | [] => exact ⟨raw, rfl⟩
    | [_] => exact ⟨raw, rfl⟩
    | _ :: _ :: _ :: _ => exact ⟨raw, rfl⟩
    | [part0, part1] => exact ⟨trimLeft part1, rfl⟩

theorem metaLines_block (m rest : Bytes) (h : ¬ metaEnd <:+: m) :
    metaLines (metaStart ++ m ++ metaEnd ++ rest) = blockLines m := by
  have hd : (metaStart ++ m ++ metaEnd ++ rest).drop metaStart.length = m ++ metaEnd ++ rest := by
    simp [List.append_assoc]
  have hp : hasPrefix (metaStart ++ m ++ metaEnd ++ rest) metaStart = true := by
    simp [hasPrefix, List.append_assoc]
  unfold metaLines
  rw [hp, hd]
  simp only [splitN2, cut_metaEnd m rest h, Bool.not_true, Bool.false_eq_true, if_false]

/-! ## The body that `parseMeta` returns -/

/-- What `strings.TrimLeft` removes: a run of bytes of the cutset at the
start, up to the first byte outside the cutset. -/
theorem trimLeft_spec (rest : Bytes) :
    ∃ ws, rest = ws ++ trimLeft rest ∧
      (∀ c ∈ ws, c = 32 ∨ c = 13 ∨ c = 10 ∨ c = 9) ∧
      (∀ c, (trimLeft rest).head? = some c → ¬ (c = 32 ∨ c = 13 ∨ c = 10 ∨ c = 9)) := by
  induction rest with
  | nil => exact ⟨[], rfl, by simp, by simp [trimLeft]⟩
  | cons x rest ih =>
    by_cases hx : x ∈ cutset
    · obtain ⟨ws, h1, h2, h3⟩ := ih
      have ht : trimLeft (x :: rest) = trimLeft rest := by simp [trimLeft, hx]
      refine ⟨x :: ws, ?_, ?_, ?_⟩
      · rw [ht, List.cons_append, ← h1]
      · intro c hc
        rcases List.mem_cons.mp hc with h | h
        · subst h
          simpa [cutset, bytes] using hx
        · exact h2 c h
      · rw [ht]
        exact h3
    · refine ⟨[], ?_, by simp, ?_⟩
      · simp [trimLeft, hx]
      · intro c hc
        have ht : trimLeft (x :: rest) = x :: rest := trimLeft_cons x rest hx
        rw [ht] at hc
        simp only [List.head?_cons, Option.some.injEq] at hc
        subst hc
        simpa [cutset, bytes] using hx

/-- C14: on a document `<!--!` ++ m ++ `-->` ++ rest with no `-->` in `m`,
when the section loads that the lines of the block make succeed, `parseMeta`
returns a body such that `rest` is a run of spaces, carriage returns,
newlines and tabs followed by the body, and the body does not begin with such
a byte: only the leading whitespace of `rest` is removed. -/
theorem parseMeta_body (site : Site) (fuel : Nat) (ctx : Context) (m rest : Bytes)
    (hm : ¬ metaEnd <:+: m)
    (hl : ∀ cp ∈ sectionLoads (site.loadDocument fuel) ctx (blockLines m),
      ∃ r, site.loadDocument fuel cp.1 cp.2 = .ok r) :
    ∃ body ctx1 ws,
      site.parseMeta fuel ctx (metaStart ++ m ++ metaEnd ++ rest) = .ok (body, ctx1) ∧
      rest = ws ++ body ∧
      (∀ c ∈ ws, c = 32 ∨ c = 13 ∨ c = 10 ∨ c = 9) ∧
      (∀ c, body.head? = some c → ¬ (c = 32 ∨ c = 13 ∨ c = 10 ∨ c = 9)) := by
  obtain ⟨ctx1, hrun⟩ :=
    runDirectives_ok_of_loads (site.loadDocument fuel) (blockLines m) ctx hl
  obtain ⟨ws, h1, h2, h3⟩ := trimLeft_spec rest
  refine ⟨trimLeft rest, ctx1, ws, ?_, h1, h2, h3⟩
  rw [Site.parseMeta, parseMetaWith_block _ _ m rest hm, hrun]

/-- Instance of C14 on `demoSite`: the block loads the section file
`a.html`, and the rest holds a second `-->` and trailing blanks. -/
theorem parseMeta_body_witness :
    ∃ body ctx1 ws,
      demoSite.parseMeta 1 newContext
          (metaStart ++ bytes "\n@section nav a.html\n" ++ metaEnd ++
            bytes " \r\n\t<p>x</p> --> \n") = .ok (body, ctx1) ∧
      bytes " \r\n\t<p>x</p> --> \n" = ws ++ body ∧
      (∀ c ∈ ws, c = 32 ∨ c = 13 ∨ c = 10 ∨ c = 9) ∧
      (∀ c, body.head? = some c → ¬ (c = 32 ∨ c = 13 ∨ c = 10 ∨ c = 9)) :=
  parseMeta_body demoSite 1 newContext (bytes "\n@section nav a.html\n")
    (bytes " \r\n\t<p>x</p> --> \n") (by decide)
    (loads_ok_of_all _ _ (by decide))

/-! ## Errors of `parseMeta` -/

/-- C16: an error of `parseMeta` is the error that one of the section loads
made by the lines of its block returned; when all the loads that the lines
make succeed, `parseMeta` succeeds; it succeeds in particular when the lines
make no load (no section directive, or only `@section` lines whose name is
already set); and every load the lines make is a nested load of a path under
`sections/`, started with an empty template stack. -/
theorem parseMeta_error_source (site : Site) (fuel : Nat) (ctx : Context) (raw : Bytes) :
    (∀ e, site.parseMeta fuel ctx raw = .error e →
      ∃ cp ∈ sectionLoads (site.loadDocument fuel) ctx (metaLines raw),
        site.loadDocument fuel cp.1 cp.2 = .error e) ∧
    ((∀ cp ∈ sectionLoads (site.loadDocument fuel) ctx (metaLines raw),
        ∃ r, site.loadDocument fuel cp.1 cp.2 = .ok r) →
      ∃ r, site.parseMeta fuel ctx raw = .ok r) ∧
    (noSectionLoad ctx.Sections (metaLines raw) = true →
      ∃ r, site.parseMeta fuel ctx raw = .ok r) ∧
    (∀ cp ∈ sectionLoads (site.loadDocument fuel) ctx (metaLines raw),
      cp.1.TemplateStack = [] ∧ ∃ src, cp.2 = filepathJoin SectionDir src) := by
  obtain ⟨body, hbody⟩ := parseMetaWith_metaLines (site.loadDocument fuel) ctx raw
  refine ⟨?_, ?_, ?_, sectionLoads_shape _ _ ctx⟩
  · intro e he
    rw [Site.parseMeta, hbody] at he
    cases hr : runDirectives (site.loadDocument fuel) ctx (metaLines raw) with
    | ok c1 => simp [hr] at he
    | timeout => simp [hr] at he
    | error e2 =>
      simp only [hr] at he
      injection he with he
      subst he
      exact runDirectives_error_load _ _ _ ctx hr
  · intro hl
    obtain ⟨c1, hr⟩ := runDirectives_ok_of_loads (site.loadDocument fuel) (metaLines raw) ctx hl
    rw [Site.parseMeta, hbody, hr]
    exact ⟨_, rfl⟩
  · intro hno
    obtain ⟨c1, hr, _⟩ := runDirectives_no_load (site.loadDocument fuel) (metaLines raw) ctx hno
    rw [Site.parseMeta, hbody, hr]
    exact ⟨_, rfl⟩

/-- Instance of C16 on `demoSite`: the line `@section nav missing.html` makes
`parseMeta` fail with the error of reading the missing file, which the load
made by that line returned; and a block that loads the section file `a.html`
succeeds. -/
theorem parseMeta_error_source_witness :
    (∃ cp ∈ sectionLoads (demoSite.loadDocument 1) newContext
        (metaLines (bytes "<!--!\n@section nav missing.html\n-->\nB")),
      demoSite.loadDocument 1 cp.1 cp.2 = .error "open: no such file or directory") ∧
    (∃ r, demoSite.parseMeta 1 newContext
      (bytes "<!--!\ntitle T\n@section nav a.html\n-->\nB") = .ok r) :=
  ⟨(parseMeta_error_source demoSite 1 newContext
      (bytes "<!--!\n@section nav missing.html\n-->\nB")).1 _ (by rfl),
    (parseMeta_error_source demoSite 1 newContext
      (bytes "<!--!\ntitle T\n@section nav a.html\n-->\nB")).2.1
      (loads_ok_of_all _ _ (by decide))⟩

/-! ## Lines that are passed over -/

theorem runDirective_malformed (load : Loader) (ctx : Context) (line : Bytes)
    (h : malformed line = true) : runDirective load ctx line = .ok ctx := by
  unfold malformed at h
  unfold runDirective
  cases hs : splitCommand line with
  | none => rfl
  | some d =>
    obtain ⟨cmd0, cmd1⟩ := d
    simp only [hs, Bool.and_eq_true, Bool.or_eq_true, decide_eq_true_eq, List.all_eq_true,
      Bool.not_eq_true'] at h
    obtain ⟨hc, harg⟩ := h
    have ht : cmd0 ≠ bytes "@template" := by rcases hc with h | h <;> (subst h; decide)
    simp only [ht, if_false, hc, if_true, spaceReSplit2_noSpace cmd1 harg]

theorem runDirectives_skip (load : Loader) (l1 l2 : List Bytes) (line : Bytes)
    (h : malformed line = true) :
    ∀ ctx : Context, runDirectives load ctx (l1 ++ line :: l2) =
      runDirectives load ctx (l1 ++ l2) := by
  induction l1 with
  | nil =>
    intro ctx
    simp [runDirectives, runDirective_malformed load ctx line h]
  | cons l ls ih =>
    intro ctx
    simp only [List.cons_append, runDirectives]
    cases runDirective load ctx l with
    | ok c1 => exact ih c1
    | error e => rfl
    | timeout => rfl

/-- C17: a line of the block that does not split into a command and an
argument, or a `@section`/`@append` line whose argument is a single token, has
no effect: `parseMeta` yields the same body, error and context as on the
block whose lines are the same without that line. -/
theorem parseMeta_malformed_line (site : Site) (fuel : Nat) (ctx : Context)
    (m m1 rest line : Bytes) (l1 l2 : List Bytes)
    (hm : ¬ metaEnd <:+: m) (hm1 : ¬ metaEnd <:+: m1)
    (hlines : blockLines m = l1 ++ line :: l2) (hlines1 : blockLines m1 = l1 ++ l2)
    (hmal : malformed line = true) :
    site.parseMeta fuel ctx (metaStart ++ m ++ metaEnd ++ rest) =
      site.parseMeta fuel ctx (metaStart ++ m1 ++ metaEnd ++ rest) := by
  rw [Site.parseMeta, Site.parseMeta, parseMetaWith_block _ _ m rest hm,
    parseMetaWith_block _ _ m1 rest hm1, hlines, hlines1,
    runDirectives_skip _ l1 l2 line hmal ctx]

/-- Instance of C17 on `demoSite`: the single token `@template` between two
directive lines. -/
theorem parseMeta_malformed_line_witness :
    demoSite.parseMeta 1 newContext
        (metaStart ++ bytes "\ntitle T\n@template\n@section nav a.html\n" ++ metaEnd ++
          bytes "\nB") =
      demoSite.parseMeta 1 newContext
        (metaStart ++ bytes "\ntitle T\n@section nav a.html\n" ++ metaEnd ++ bytes "\nB") :=
  parseMeta_malformed_line demoSite 1 newContext
    (bytes "\ntitle T\n@template\n@section nav a.html\n")
    (bytes "\ntitle T\n@section nav a.html\n") (bytes "\nB") (bytes "@template\n")
    [bytes "title T\n"] [bytes "@section nav a.html\n"]
    (by decide) (by decide) (by decide) (by decide) (by decide)

/-! ## Template names -/

theorem spaceReSplitAux_separator (sep w : Bytes) (hs : Separator sep) (hw : w ≠ [])
    (hh : isSpace (w.headD 0) = false) :
    spaceReSplitAux false (sep ++ w) = [] :: spaceReSplitAux false w := by
  obtain ⟨hne, hall⟩ := hs
  have hrun : ∀ s : Bytes, (∀ x ∈ s, isSpace x = true) →
      spaceReSplitAux true (s ++ w) = spaceReSplitAux false w := by
    intro s hsp
    induction s with
    | nil => exact spaceReSplitAux_true_word w hw hh
    | cons x s ih =>
      have hx : isSpace x = true := hsp x (by simp)
      simp [spaceReSplitAux, hx, ih (fun y hy => hsp y (by simp [hy]))]
  cases sep with
  | nil => exact absurd rfl hne
  | cons x sep =>
    have hx : isSpace x = true := hall x (by simp)
    simp [spaceReSplitAux, hx, hrun sep (fun y hy => hall y (by simp [hy]))]

/-- The call `spaceRe.Split(arg, -1)` on names that runs of whitespace
separate yields the names, in order. -/
theorem spaceReSplitAll_joinNames (more : List (Bytes × Bytes)) :
    ∀ first : Bytes, Token first →
      (∀ d ∈ more, Separator d.1 ∧ Token d.2) →
      spaceReSplitAll (joinNames first more) = first :: more.map (fun d => d.2) := by
  induction more with
  | nil =>
    intro first hf _
    have := spaceReSplitAux_word first [] hf.2
    simpa [spaceReSplitAll, joinNames, spaceReSplitAux] using this
  | cons d more ih =>
    intro first hf hmore
    obtain ⟨sep, name⟩ := d
    obtain ⟨hsep, hname⟩ := hmore (sep, name) (by simp)
    have hrest := ih name hname (fun d hd => hmore d (by simp [hd]))
    rw [spaceReSplitAll] at hrest
    have hne : joinNames name more ≠ [] := by
      cases more with
      | nil => exact hname.1
      | cons d2 more2 =>
        obtain ⟨s2, n2⟩ := d2
        intro h
        simp [joinNames] at h
        exact hname.1 h.1
    have hh : isSpace ((joinNames name more).headD 0) = false := by
      cases name with
      | nil => exact absurd rfl hname.1
      | cons c name =>
        have hc : isSpace c = false := hname.2 c (by simp)
        cases more with
        | nil => exact hc
        | cons d2 more2 =>
          obtain ⟨s2, n2⟩ := d2
          simpa [joinNames] using hc
    have h2 := spaceReSplitAux_separator sep (joinNames name more) hsep hne hh
    rw [spaceReSplitAll, joinNames, List.append_assoc, spaceReSplitAux_word first _ hf.2, h2,
      hrest]
    simp

/-- The loop over lines that are all `@template` lines or passed over: the
names of the lines are appended in the order of the lines, and the variables
and the sections stay. -/
theorem runDirectives_templates (load : Loader) (lines : List Bytes) :
    ∀ ctx : Context,
      (∀ l ∈ lines, ∀ d, splitCommand l = some d → d.1 = bytes "@template") →
      runDirectives load ctx lines =
        .ok { ctx with
              TemplateStack := ctx.TemplateStack ++
                ((lines.filterMap splitCommand).map (fun d => spaceReSplitAll d.2)).flatten } := by
  induction lines with
  | nil => intro ctx _; simp [runDirectives]
  | cons l ls ih =>
    intro ctx h
    have hls := ih
    cases hs : splitCommand l with
    | none =>
      rw [runDirectives, runDirective_ignored load ctx l hs]
      simp only []
      rw [ih ctx (fun l2 hl2 => h l2 (by simp [hl2]))]
      simp [List.filterMap_cons, hs]
    | some d =>
      obtain ⟨cmd0, cmd1⟩ := d
      have hc : cmd0 = bytes "@template" := h l (by simp) (cmd0, cmd1) hs
      subst hc
      rw [runDirectives, runDirective_template load ctx l cmd1 hs]
      simp only []
      rw [ih _ (fun l2 hl2 => h l2 (by simp [hl2]))]
      simp [List.filterMap_cons, hs, List.append_assoc]

/-- C15 on the code: a `@template` line that ends in a form feed.  The cutset
of `strings.Trim` has no form feed, the class `\s` of the split has it, so the
argument `x.html\f` splits into `x.html` and an empty name, and both are
pushed.  On a line that ends in a name the code pushes the names alone
(`runDirectives_templates`, `spaceReSplitAll_joinNames`). -/
theorem parseMeta_pushes_empty_name :
    stackOf (demoSite.parseMeta 0 newContext (bytes "<!--!\n@template x.html\x0c\n-->\nBody")) =
        some [bytes "x.html", []] ∧
      stackOf (demoSite.parseMeta 0 newContext (bytes "<!--!\n@template\x0c\n-->\nBody")) =
        some [[]] ∧
      filepathJoin TempalteDir [] = bytes "templates" := by
  decide

/-! ## Variables along the template chain -/

theorem runDirective_keeps (load : Loader) (hload : KeepsDict load) (ctx ctx1 : Context)
    (line k v : Bytes) (hk : ctx.Dict k = some v)
    (h : runDirective load ctx line = .ok ctx1) : ctx1.Dict k = some v := by
  unfold runDirective at h
  cases hs : splitCommand line with
  | none =>
    simp only [hs] at h
    injection h with h
    subst h
    exact hk
  | some d =>
    obtain ⟨cmd0, cmd1⟩ := d
    simp only [hs] at h
    by_cases h1 : cmd0 = bytes "@template"
    · simp only [h1, if_true] at h
      injection h with h
      subst h
      exact hk
    · by_cases h2 : cmd0 = bytes "@section" ∨ cmd0 = bytes "@append"
      · simp only [h1, if_false, h2, if_true] at h
        generalize spaceReSplit2 cmd1 = pair at h
        match pair with
        | [] => injection h with h; subst h; exact hk
        | [_] => injection h with h; subst h; exact hk
        | _ :: _ :: _ :: _ => injection h with h; subst h; exact hk
        | [name, src] =>
          simp only [] at h
          by_cases hc : (ctx.Sections name).isNone ∨ cmd0 = bytes "@append"
          · rw [if_pos hc] at h
            cases hl : load { ctx with TemplateStack := [] } (filepathJoin SectionDir src) with
            | error e => simp [hl] at h
            | timeout => simp [hl] at h
            | ok r =>
              obtain ⟨sect, c2⟩ := r
              simp only [hl] at h
              injection h with h
              subst h
              exact hload { ctx with TemplateStack := [] } _ _ c2 k v hk hl
          · rw [if_neg hc] at h
            injection h with h
            subst h
            exact hk
      · simp only [h1, if_false, h2] at h
        by_cases hn : (ctx.Dict cmd0).isNone
        · simp only [hn, if_true] at h
          injection h with h
          subst h
          have hne : k ≠ cmd0 := by
            rintro rfl
            simp [hk] at hn
          simp [mapSet, hne, hk]
        · simp only [hn] at h
          injection h with h
          subst h
          exact hk

theorem runDirectives_keeps (load : Loader) (hload : KeepsDict load) (lines : List Bytes)
    (k v : Bytes) :
    ∀ ctx ctx1 : Context, ctx.Dict k = some v → runDirectives load ctx lines = .ok ctx1 →
      ctx1.Dict k = some v := by
  induction lines with
  | nil =>
    intro ctx ctx1 hk h
    simp only [runDirectives] at h
    injection h with h
    subst h
    exact hk
  | cons l ls ih =>
    intro ctx ctx1 hk h
    rw [runDirectives] at h
    cases hr : runDirective load ctx l with
    | error e => simp [hr] at h
    | timeout => simp [hr] at h
    | ok c1 =>
      simp only [hr] at h
      exact ih c1 ctx1 (runDirective_keeps load hload ctx c1 l k v hk hr) h

theorem parseMetaWith_keeps (load : Loader) (hload : KeepsDict load) (ctx ctx1 : Context)
    (raw body k v : Bytes) (hk : ctx.Dict k = some v)
    (h : parseMetaWith load ctx raw = .ok (body, ctx1)) : ctx1.Dict k = some v := by
  rcases parseMetaWith_cases load ctx raw with h1 | ⟨p0, p1, h1⟩
  · rw [h1] at h
    injection h with h
    injection h with _ h2
    subst h2
    exact hk
  · rw [h1] at h
    cases hr : runDirectives load ctx (blockLines p0) with
    | error e => simp [hr] at h
    | timeout => simp [hr] at h
    | ok c1 =>
      simp only [hr] at h
      injection h with h
      injection h with _ h2
      subst h2
      exact runDirectives_keeps load hload _ k v ctx c1 hk hr

/-- The loop of `loadDocument` keeps every variable that is set when it is
entered, through all the templates and sections it loads. -/
theorem loadLoop_keeps (site : Site) :
    ∀ (fuel : Nat) (inner : Option Bytes),
      KeepsDict (fun c p => site.loadLoop fuel c p inner) := by
  intro fuel
  induction fuel with
  | zero =>
    intro inner c p body c1 k v _ h
    simp [Site.loadLoop] at h
  | succ fuel ih =>
    intro inner c p body c1 k v hk h
    simp only [] at h
    rw [Site.loadLoop] at h
    cases hr : site.readRawFile p with
    | error e => simp [hr] at h
    | ok raw =>
      simp only [hr] at h
      by_cases hop : (!(isMarkdown p || isHTML p)) = true
      · simp only [hop, if_true] at h
        injection h with h
        injection h with _ h2
        subst h2
        exact hk
      · simp only [hop, Bool.false_eq_true, if_false] at h
        cases hp : parseMetaWith (fun c p => site.loadLoop fuel c p none) c raw with
        | error e => simp [hp] at h
        | timeout => simp [hp] at h
        | ok r =>
          obtain ⟨b, c2⟩ := r
          have hk2 : c2.Dict k = some v := parseMetaWith_keeps _ (ih none) c c2 raw b k v hk hp
          simp only [hp] at h
          cases hg : c2.TemplateStack.getLast? with
          | none =>
            simp only [hg] at h
            injection h with h
            injection h with _ h2
            subst h2
            exact hk2
          | some t =>
            simp only [hg] at h
            exact ih _ { c2 with TemplateStack := c2.TemplateStack.dropLast } _ _ _ k v hk2 h

/-- C19: a leaf `.html` document whose block has no section directive and
whose first line with command token `k` has the argument `v`: when
`loadDocument` from a fresh context returns, `variables[k]` is `v`, whatever
the templates of the chain assign to `k`; and from any context in which `k`
is set, `loadDocument` returns with `k` as it was, so that an assignment of a
template takes effect only when `k` is still unset. -/
theorem loadDocument_page_variable (site : Site) (fuel : Nat)
    (leafPath m rest k v body : Bytes) (ctx1 : Context)
    (hleaf : isHTML leafPath = true)
    (hread : site.readRawFile leafPath = .ok (metaStart ++ m ++ metaEnd ++ rest))
    (hm : ¬ metaEnd <:+: m)
    (hns : ∀ d ∈ directives m, d.1 ≠ bytes "@section" ∧ d.1 ≠ bytes "@append")
    (hk : k ≠ bytes "@template") (hassign : firstArgument (directives m) k = some v)
    (hret : site.loadDocument fuel newContext leafPath = .ok (body, ctx1)) :
    ctx1.Dict k = some v ∧
      ∀ (ctx : Context) (path b : Bytes) (c1 : Context) (w : Bytes),
        ctx.Dict k = some w → site.loadDocument fuel ctx path = .ok (b, c1) →
        c1.Dict k = some w := by
  refine ⟨?_, fun ctx path b c1 w hw h => loadLoop_keeps site fuel none ctx path b c1 k w hw h⟩
  cases fuel with
  | zero => simp [Site.loadDocument, Site.loadLoop] at hret
  | succ fuel =>
    have hns1 : ∀ l ∈ blockLines m, ∀ d, splitCommand l = some d →
        d.1 ≠ bytes "@section" ∧ d.1 ≠ bytes "@append" := by
      intro l hl d hd
      exact hns d (by simp only [directives, List.mem_filterMap]; exact ⟨l, hl, hd⟩)
    obtain ⟨c0, hrun, _, hset⟩ :=
      runDirectives_dict (fun c p => site.loadLoop fuel c p none) (blockLines m) newContext hns1
    have hk0 : c0.Dict k = some v := by
      rw [hset k rfl hk]
      exact hassign
    rw [Site.loadDocument, loadLoop_html site fuel _ leafPath _ none hleaf hread,
      parseMetaWith_block _ _ m rest hm, hrun] at hret
    simp only [] at hret
    cases hg : c0.TemplateStack.getLast? with
    | none =>
      simp only [hg] at hret
      injection hret with hret
      injection hret with _ h2
      subst h2
      exact hk0
    | some t =>
      simp only [hg] at hret
      exact loadLoop_keeps site fuel _ { c0 with TemplateStack := c0.TemplateStack.dropLast }
        _ _ _ k v hk0 hret

/-- Instance of C19 on `chainSite`: `pages/post.html` has the line
`title Post`, and its template `base.html` has the line `title Site`. -/
theorem loadDocument_page_variable_witness :
    ({ newContext with
        Dict := mapSet (mapSet newContext.Dict (bytes "title") (bytes "Post"))
          (bytes "author") (bytes "me") } : Context).Dict (bytes "title") =
        some (bytes "Post") ∧
      ∀ (ctx : Context) (path b : Bytes) (c1 : Context) (w : Bytes),
        ctx.Dict (bytes "title") = some w →
        chainSite.loadDocument 2 ctx path = .ok (b, c1) → c1.Dict (bytes "title") = some w :=
  loadDocument_page_variable chainSite 2 (bytes "pages/post.html")
    (bytes "\n@template base.html\ntitle Post\n") (bytes "\nHello") (bytes "title")
    (bytes "Post") (bytes "<h1>Hello</h1>")
    { newContext with
      Dict := mapSet (mapSet newContext.Dict (bytes "title") (bytes "Post"))
        (bytes "author") (bytes "me") }
    (by decide) (by rfl) (by decide) (by decide) (by decide) (by decide) (by rfl)

/-! ## A template that names itself -/

/-- On `chainSite` the template `t.html` declares `@template t.html`: after
`parseMeta` has read it with an empty stack, the stack holds `t.html`. -/
theorem parseMeta_self_template (load : Loader) (ctx : Context) :
    parseMetaWith load { ctx with TemplateStack := [] }
        (bytes "<!--!\n@template t.html\n-->\n<t>\x7b\x7b#INNER_DOCUMENT\x7d\x7d</t>") =
      .ok (bytes "<t>\x7b\x7b#INNER_DOCUMENT\x7d\x7d</t>",
        { ctx with TemplateStack := [bytes "t.html"] }) := by
  rfl

/-- The loop of `loadDocument` entered at `templates/t.html` of `chainSite`
with an empty stack uses up any fuel. -/
theorem loadLoop_self_template :
    ∀ (fuel : Nat) (ctx : Context) (inner : Option Bytes),
      chainSite.loadLoop fuel { ctx with TemplateStack := [] } (bytes "templates/t.html") inner =
        .timeout := by
  intro fuel
  induction fuel with
  | zero => intro ctx inner; rfl
  | succ fuel ih =>
    intro ctx inner
    rw [loadLoop_html chainSite fuel _ (bytes "templates/t.html") _ inner (by decide) (by rfl),
      parseMeta_self_template]
    exact ih ctx _

/-- C20: on `chainSite` the page `pages/loop.html` declares `@template t.html`
and the template `templates/t.html` declares `@template t.html` too.  For
every amount of fuel `loadDocument` from a fresh context has neither returned
nor failed, and each `parseMeta` of the template, entered with the stack
empty, leaves the stack with `t.html` on it. -/
theorem loadDocument_template_cycle :
    (∀ fuel : Nat,
      chainSite.loadDocument fuel newContext (bytes "pages/loop.html") = .timeout) ∧
    (∀ (fuel : Nat) (ctx : Context),
      stackOf (chainSite.parseMeta fuel { ctx with TemplateStack := [] }
        (bytes "<!--!\n@template t.html\n-->\n<t>\x7b\x7b#INNER_DOCUMENT\x7d\x7d</t>")) =
        some [bytes "t.html"]) ∧
    chainSite.readRawFile (bytes "templates/t.html") =
      .ok (bytes "<!--!\n@template t.html\n-->\n<t>\x7b\x7b#INNER_DOCUMENT\x7d\x7d</t>") := by
  refine ⟨?_, ?_, rfl⟩
  · intro fuel
    cases fuel with
    | zero => rfl
    | succ fuel =>
      have hp : parseMetaWith (fun c p => chainSite.loadLoop fuel c p none) newContext
          (bytes "<!--!\n@template t.html\n-->\nx") =
          .ok (bytes "x", { newContext with TemplateStack := [bytes "t.html"] }) := rfl
      rw [Site.loadDocument,
        loadLoop_html chainSite fuel _ (bytes "pages/loop.html") _ none (by decide) (by rfl), hp]
      exact loadLoop_self_template fuel newContext _
  · intro fuel ctx
    rw [Site.parseMeta, parseMeta_self_template]
    rfl

/-! ## Resolution of texts written with whole placeholders -/

theorem renderSegs_append (a b : List Seg) :
    renderSegs (a ++ b) = renderSegs a ++ renderSegs b := by
  induction a with
  | nil => rfl
  | cons seg a ih => simp [renderSegs, ih]

/-- A pass copies a literal piece, whatever follows it: the expression
matches at no position of a text that has no `{{#` and does not end in an
opening brace. -/
theorem sectionPass_literal (sections : Bytes → Option Bytes) (s t : Bytes)
    (h1 : ¬ [123, 123, 35] <:+: s) (h2 : s.getLast? ≠ some 123) :
    sectionPass sections 0 (s ++ t) =
      (s ++ (sectionPass sections 0 t).1, (sectionPass sections 0 t).2) := by
  induction s with
  | nil => rfl
  | cons c s ih =>
    have hm : sectionMatch (c :: s ++ t) = none := by
      unfold sectionMatch
      split
      · rename_i u heq
        exfalso
        match s, heq with
        | [], heq =>
          simp only [List.cons_append, List.nil_append, List.cons.injEq] at heq
          exact h2 (by simp [heq.1])
        | [d], heq =>
          simp only [List.cons_append, List.nil_append, List.cons.injEq] at heq
          exact h2 (by simp [heq.2.1])
        | d :: e :: s2, heq =>
          simp only [List.cons_append, List.cons.injEq] at heq
          obtain ⟨hc, hd, he, _⟩ := heq
          subst hc hd he
          exact h1 ⟨[], s2, by simp⟩
      · rfl
    have h1s : ¬ [123, 123, 35] <:+: s :=
      fun hi => h1 (hi.trans (List.suffix_cons c s).isInfix)
    have h2s : s.getLast? ≠ some 123 := by
      cases s with
      | nil => simp
      | cons d s2 => simpa [List.getLast?_cons_cons] using h2
    have := ih h1s h2s
    simp only [List.cons_append] at hm ⊢
    simp [sectionPass, hm, this]

/-- A pass on a text written with whole placeholders is the pass on its
pieces, and `replaced` tells whether a placeholder named a section that is
set. -/
theorem sectionPass_renderSegs (sections : Bytes → Option Bytes) (pieces : Bytes → List Seg)
    (hs : SectionsInPieces sections pieces) (ss : List Seg)
    (hwf : ∀ seg ∈ ss, seg.wellFormed) :
    sectionPass sections 0 (renderSegs ss) =
      (renderSegs (expandSegs sections pieces ss), anyPresent sections ss) := by
  induction ss with
  | nil => rfl
  | cons seg ss ih =>
    have ih2 := ih (fun x hx => hwf x (by simp [hx]))
    cases seg with
    | lit s =>
      have hl : ¬ [123, 123, 35] <:+: s ∧ s.getLast? ≠ some 123 := hwf (.lit s) (by simp)
      simp only [renderSegs, Seg.render, expandSegs, anyPresent]
      rw [sectionPass_literal sections s _ hl.1 hl.2, ih2]
    | ph name =>
      have hn : name ≠ [] ∧ ∀ c ∈ name, c ≠ 125 := hwf (.ph name) (by simp)
      have hr : renderSegs (Seg.ph name :: ss) =
          123 :: 123 :: 35 :: (name ++ 125 :: 125 :: renderSegs ss) := by
        simp [renderSegs, Seg.render]
      rw [hr, sectionPass_placeholder sections name _ hn.1 hn.2, ih2]
      cases hsec : sections name with
      | none => simp [expandSegs, anyPresent, hsec]
      | some content =>
        simp only [expandSegs, anyPresent, hsec, renderSegs_append, (hs name content hsec).1,
          Option.isSome_some, Bool.true_or]

theorem expandSegs_wellFormed (sections : Bytes → Option Bytes) (pieces : Bytes → List Seg)
    (hs : SectionsInPieces sections pieces) (ss : List Seg)
    (hwf : ∀ seg ∈ ss, seg.wellFormed) :
    ∀ seg ∈ expandSegs sections pieces ss, seg.wellFormed := by
  induction ss with
  | nil => intro seg h; simp [expandSegs] at h
  | cons x ss ih =>
    have ih2 := ih (fun y hy => hwf y (by simp [hy]))
    intro seg h
    cases x with
    | lit s =>
      simp only [expandSegs, List.mem_cons] at h
      rcases h with h | h
      · subst h
        exact hwf _ (by simp)
      · exact ih2 seg h
    | ph name =>
      cases hsec : sections name with
      | none =>
        simp only [expandSegs, hsec] at h
        exact ih2 seg h
      | some content =>
        simp only [expandSegs, hsec, List.mem_append] at h
        rcases h with h | h
        · exact (hs name content hsec).2 seg h
        · exact ih2 seg h

theorem mem_expandSegs (sections : Bytes → Option Bytes) (pieces : Bytes → List Seg)
    (ss : List Seg) (name : Bytes) (hmem : Seg.ph name ∈ ss) (hset : (sections name).isSome) :
    anyPresent sections ss = true ∧ ∀ seg ∈ pieces name, seg ∈ expandSegs sections pieces ss := by
  induction ss with
  | nil => simp at hmem
  | cons x ss ih =>
    rcases List.mem_cons.mp hmem with h | h
    · subst h
      obtain ⟨content, hc⟩ := Option.isSome_iff_exists.mp hset
      refine ⟨by simp [anyPresent, hc], fun seg hseg => ?_⟩
      simp [expandSegs, hc, hseg]
    · obtain ⟨h1, h2⟩ := ih h
      cases x with
      | lit s =>
        refine ⟨by simpa [anyPresent] using h1, fun seg hseg => ?_⟩
        simp [expandSegs, h2 seg hseg]
      | ph other =>
        refine ⟨by simp [anyPresent, h1], fun seg hseg => ?_⟩
        cases hsec : sections other <;> simp [expandSegs, hsec, h2 seg hseg]

/-! ## Sections that refer to themselves -/

/-- C11, as the code has it: the text and the contents of the sections that
are set are written with whole placeholders (the bytes `{{#` occur only as
the start of a placeholder, and no stretch of other text ends in an opening
brace; braces are free otherwise), `family` is a family of sections that are set, each with a
placeholder of a section of the family in its content (a section that refers
to itself, directly or through others), and the text has a placeholder of a
section of the family.  Then the resolution loop never ends: with any fuel
it is still running, every pass having replaced a section that is set. -/
theorem resolveSections_self_reference (sections : Bytes → Option Bytes)
    (pieces : Bytes → List Seg) (family : Bytes → Prop) (ts : List Seg)
    (hs : SectionsInPieces sections pieces)
    (hwf : ∀ seg ∈ ts, seg.wellFormed)
    (hfam : ∀ name, family name →
      (sections name).isSome ∧ ∃ next, family next ∧ Seg.ph next ∈ pieces name)
    (hstart : ∃ name, family name ∧ Seg.ph name ∈ ts) :
    ∀ fuel, resolveSections sections fuel (renderSegs ts) = none := by
  intro fuel
  induction fuel generalizing ts with
  | zero => rfl
  | succ fuel ih =>
    obtain ⟨name, hn, hmem⟩ := hstart
    obtain ⟨hset, next, hnext, hin⟩ := hfam name hn
    obtain ⟨hany, hsub⟩ := mem_expandSegs sections pieces ts name hmem hset
    rw [resolveSections, sectionPass_renderSegs sections pieces hs ts hwf]
    simp only [hany, if_true]
    exact ih (expandSegs sections pieces ts)
      (expandSegs_wellFormed sections pieces hs ts hwf) ⟨next, hnext, hsub _ hin⟩

/-- Instance of C11 as amended: the text `{{.t}}{{#a}}` with `sections[a]`
equal to `{{#a}}`; no amount of fuel lets the loop return. -/
theorem resolveSections_self_reference_witness :
    ¬ ∃ fuel out, resolveSections
      (mapSet (fun _ => none) (bytes "a") (bytes "\x7b\x7b#a\x7d\x7d")) fuel
      (renderSegs [Seg.lit (bytes "\x7b\x7b.t\x7d\x7d"), Seg.ph (bytes "a")]) = some out := by
  rintro ⟨fuel, out, h⟩
  have hnone := resolveSections_self_reference
    (mapSet (fun _ => none) (bytes "a") (bytes "\x7b\x7b#a\x7d\x7d"))
    (fun _ => [Seg.ph (bytes "a")]) (fun name => name = bytes "a")
    [Seg.lit (bytes "\x7b\x7b.t\x7d\x7d"), Seg.ph (bytes "a")]
    (by
      intro name content h
      have hc : content = bytes "\x7b\x7b#a\x7d\x7d" := by
        unfold mapSet at h
        split at h
        · exact (Option.some.inj h).symm
        · exact absurd h (by simp)
      subst hc
      refine ⟨rfl, ?_⟩
      intro seg hseg
      rw [List.mem_singleton.mp hseg]
      exact ⟨by decide, by decide⟩)
    (by decide)
    (by
      intro name h
      subst h
      exact ⟨by decide, bytes "a", rfl, by simp⟩)
    ⟨bytes "a", rfl, by simp⟩ fuel
  rw [hnone] at h
  exact absurd h (by simp)

/-- C11 as stated fails: `sections[a]` is `{#z{{#a}}`, which has the
placeholder `{{#a}}`, and the text is `{{{#a}}`, which has it too and where
the first pass replaces it.  The second text is `{{#z{{#a}}`, one placeholder
of the name `z{{#a`, which is not set: the second pass deletes it, replaces
no section, and the loop ends with the empty text. -/
theorem resolveSections_self_reference_ends :
    bytes "\x7b\x7b#a\x7d\x7d" <:+: bytes "\x7b\x7b\x7b#a\x7d\x7d" ∧
      bytes "\x7b\x7b#a\x7d\x7d" <:+: bytes "\x7b#z\x7b\x7b#a\x7d\x7d" ∧
      sectionMatch ((bytes "\x7b#z\x7b\x7b#a\x7d\x7d").drop 3) = some (bytes "a", []) ∧
      sectionPass (mapSet (fun _ => none) (bytes "a") (bytes "\x7b#z\x7b\x7b#a\x7d\x7d")) 0
        (bytes "\x7b\x7b\x7b#a\x7d\x7d") = (bytes "\x7b\x7b#z\x7b\x7b#a\x7d\x7d", true) ∧
      resolveSections (mapSet (fun _ => none) (bytes "a") (bytes "\x7b#z\x7b\x7b#a\x7d\x7d")) 2
        (bytes "\x7b\x7b\x7b#a\x7d\x7d") = some [] := by
  decide

/-! ## Nesting of bounded depth -/

theorem nesting_append (sections : Bytes → Option Bytes) (rank : Bytes → Nat)
    (a b : List Seg) :
    nesting sections rank (a ++ b) = max (nesting sections rank a) (nesting sections rank b) := by
  induction a with
  | nil => simp [nesting]
  | cons x a ih =>
    cases x with
    | lit s => simpa [nesting] using ih
    | ph name =>
      by_cases h : (sections name).isSome
      · have e1 : nesting sections rank (Seg.ph name :: (a ++ b)) =
            max (rank name + 1) (nesting sections rank (a ++ b)) := by simp [nesting, h]
        have e2 : nesting sections rank (Seg.ph name :: a) =
            max (rank name + 1) (nesting sections rank a) := by simp [nesting, h]
        rw [List.cons_append, e1, e2, ih]
        omega
      · simpa [nesting, h] using ih

theorem nesting_le (sections : Bytes → Option Bytes) (rank : Bytes → Nat) (bound : Nat)
    (ss : List Seg)
    (h : ∀ name, Seg.ph name ∈ ss → (sections name).isSome → rank name < bound) :
    nesting sections rank ss ≤ bound := by
  induction ss with
  | nil => simp [nesting]
  | cons x ss ih =>
    have ih2 := ih (fun name hm hset => h name (by simp [hm]) hset)
    cases x with
    | lit s => simpa [nesting] using ih2
    | ph name =>
      by_cases hset : (sections name).isSome
      · have := h name (by simp) hset
        simp only [nesting, hset, if_true]
        omega
      · simpa [nesting, hset] using ih2

theorem anyPresent_of_nesting (sections : Bytes → Option Bytes) (rank : Bytes → Nat)
    (ss : List Seg) (h : nesting sections rank ss = 0) : anyPresent sections ss = false := by
  induction ss with
  | nil => rfl
  | cons x ss ih =>
    cases x with
    | lit s => exact ih (by simpa [nesting] using h)
    | ph name =>
      by_cases hset : (sections name).isSome
      · simp only [nesting, hset, if_true] at h
        omega
      · have hn : nesting sections rank ss = 0 := by simpa [nesting, hset] using h
        simp [anyPresent, hset, ih hn]

/-- A pass lowers the depth of nesting. -/
theorem nesting_expandSegs (sections : Bytes → Option Bytes) (pieces : Bytes → List Seg)
    (rank : Bytes → Nat)
    (hrank : ∀ name inner, (sections name).isSome → Seg.ph inner ∈ pieces name →
      (sections inner).isSome → rank inner < rank name)
    (ss : List Seg) :
    nesting sections rank (expandSegs sections pieces ss) ≤ nesting sections rank ss - 1 := by
  induction ss with
  | nil => simp [expandSegs, nesting]
  | cons x ss ih =>
    cases x with
    | lit s => simpa [expandSegs, nesting] using ih
    | ph name =>
      cases hsec : sections name with
      | none => simpa [expandSegs, nesting, hsec] using ih
      | some content =>
        have hset : (sections name).isSome := by simp [hsec]
        have hp := nesting_le sections rank (rank name) (pieces name)
          (fun inner hm hi => hrank name inner hset hm hi)
        simp only [expandSegs, hsec, nesting, Option.isSome_some, if_true, nesting_append]
        omega

theorem resolveSections_bounded (sections : Bytes → Option Bytes) (pieces : Bytes → List Seg)
    (rank : Bytes → Nat) (hs : SectionsInPieces sections pieces)
    (hrank : ∀ name inner, (sections name).isSome → Seg.ph inner ∈ pieces name →
      (sections inner).isSome → rank inner < rank name) :
    ∀ (depth : Nat) (ss : List Seg), (∀ seg ∈ ss, seg.wellFormed) →
      nesting sections rank ss ≤ depth →
      ∃ out, ∀ fuel, depth < fuel → resolveSections sections fuel (renderSegs ss) = some out := by
  intro depth
  induction depth with
  | zero =>
    intro ss hwf hd
    have hany := anyPresent_of_nesting sections rank ss (by omega)
    refine ⟨renderSegs (expandSegs sections pieces ss), fun fuel hf => ?_⟩
    obtain ⟨f, rfl⟩ : ∃ f, fuel = f + 1 := ⟨fuel - 1, by omega⟩
    rw [resolveSections, sectionPass_renderSegs sections pieces hs ss hwf]
    simp [hany]
  | succ depth ih =>
    intro ss hwf hd
    cases hany : anyPresent sections ss with
    | false =>
      refine ⟨renderSegs (expandSegs sections pieces ss), fun fuel hf => ?_⟩
      obtain ⟨f, rfl⟩ : ∃ f, fuel = f + 1 := ⟨fuel - 1, by omega⟩
      rw [resolveSections, sectionPass_renderSegs sections pieces hs ss hwf]
      simp [hany]
    | true =>
      have hlow := nesting_expandSegs sections pieces rank hrank ss
      obtain ⟨out, hout⟩ := ih (expandSegs sections pieces ss)
        (expandSegs_wellFormed sections pieces hs ss hwf) (by omega)
      refine ⟨out, fun fuel hf => ?_⟩
      obtain ⟨f, rfl⟩ : ∃ f, fuel = f + 1 := ⟨fuel - 1, by omega⟩
      rw [resolveSections, sectionPass_renderSegs sections pieces hs ss hwf]
      simp only [hany, if_true]
      exact hout f (by omega)

/-- C18, as the code has it: the text and the contents of the sections that
are set are written with whole placeholders (the bytes `{{#` occur only as
the start of a placeholder, and no stretch of other text ends in an opening
brace; braces are free otherwise), and the sections can be ranked so that the content of a
section has placeholders only of sections of lower rank, or of sections that
are not set.  Then the resolution loop ends: from some amount of fuel on it
returns one and the same text. -/
theorem resolveSections_terminates (sections : Bytes → Option Bytes)
    (pieces : Bytes → List Seg) (rank : Bytes → Nat) (ts : List Seg)
    (hs : SectionsInPieces sections pieces)
    (hwf : ∀ seg ∈ ts, seg.wellFormed)
    (hrank : ∀ name inner, (sections name).isSome → Seg.ph inner ∈ pieces name →
      (sections inner).isSome → rank inner < rank name) :
    ∃ bound out, ∀ fuel, bound < fuel →
      resolveSections sections fuel (renderSegs ts) = some out := by
  obtain ⟨out, h⟩ := resolveSections_bounded sections pieces rank hs hrank
    (nesting sections rank ts) ts hwf (Nat.le_refl _)
  exact ⟨_, out, h⟩

theorem nestedSections_inPieces : SectionsInPieces nestedSections nestedPieces := by
  intro name content h
  unfold nestedSections at h
  split at h
  · rename_i hn
    subst hn
    have hc := (Option.some.inj h).symm
    subst hc
    exact ⟨by decide, by decide⟩
  · split at h
    · rename_i hn
      subst hn
      have hc := (Option.some.inj h).symm
      subst hc
      exact ⟨by decide, by decide⟩
    · exact absurd h (by simp)

theorem nestedRank_lowers (name inner : Bytes) (_hset : (nestedSections name).isSome)
    (hmem : Seg.ph inner ∈ nestedPieces name) (_hin : (nestedSections inner).isSome) :
    nestedRank inner < nestedRank name := by
  unfold nestedPieces at hmem
  split at hmem
  · rename_i hn
    subst hn
    simp at hmem
    subst hmem
    decide
  · split at hmem
    · simp at hmem
    · simp at hmem

/-- Instance of C18 as amended: the text
`<title>{{.title}}</title>{{#nav}}{{#gone}}` with `nestedSections`. -/
theorem resolveSections_terminates_witness :
    ∃ bound out, ∀ fuel, bound < fuel →
      resolveSections nestedSections fuel
        (renderSegs [.lit (bytes "<title>\x7b\x7b.title\x7d\x7d</title>"), .ph (bytes "nav"),
          .ph (bytes "gone")]) = some out :=
  resolveSections_terminates nestedSections nestedPieces nestedRank
    [.lit (bytes "<title>\x7b\x7b.title\x7d\x7d</title>"), .ph (bytes "nav"), .ph (bytes "gone")]
    nestedSections_inPieces (by decide) nestedRank_lowers

/-! ## A content without placeholder that keeps the loop running -/

theorem openers_head (j : Nat) :
    (List.replicate j opener).flatten = [] ∨
      ∃ r, (List.replicate j opener).flatten = 123 :: r := by
  cases j with
  | zero => exact Or.inl rfl
  | succ j =>
    exact Or.inr ⟨[123, 35, 97, 125] ++ (List.replicate j opener).flatten,
      by simp [List.replicate_succ, opener, bytes]⟩

/-- A pass copies `opener` when no closing brace follows it. -/
theorem sectionPass_opener (sections : Bytes → Option Bytes) (t : Bytes)
    (ht : t = [] ∨ ∃ r, t = 123 :: r) :
    sectionPass sections 0 (opener ++ t) =
      (opener ++ (sectionPass sections 0 t).1, (sectionPass sections 0 t).2) := by
  rcases ht with rfl | ⟨r, rfl⟩ <;>
    simp [opener, bytes, sectionPass, sectionMatch]

theorem sectionPass_openers (sections : Bytes → Option Bytes) (j : Nat) :
    sectionPass sections 0 (List.replicate j opener).flatten =
      ((List.replicate j opener).flatten, false) := by
  induction j with
  | zero => rfl
  | succ j ih =>
    have h : (List.replicate (j + 1) opener).flatten = opener ++ (List.replicate j opener).flatten := by
      simp [List.replicate_succ]
    rw [h, sectionPass_opener sections _ (openers_head j), ih]

theorem replicate_closers (i : Nat) (t : Bytes) :
    List.replicate i 125 ++ 125 :: 125 :: t = List.replicate (i + 2) 125 ++ t := by
  induction i with
  | zero => rfl
  | succ i ih =>
    rw [List.replicate_succ, List.cons_append, ih]
    rfl

theorem closers_plain (i : Nat) : ∀ c ∈ List.replicate i 125, c ≠ 123 := by
  intro c hc
  rw [List.eq_of_mem_replicate hc]
  decide

theorem sectionPass_strayEven (i j : Nat) :
    sectionPass straySections 0 (strayEven i j) = (strayOdd i (j + 2), true) := by
  have hph : opener ++ 125 :: (List.replicate j opener).flatten =
      123 :: 123 :: 35 :: (bytes "a" ++ 125 :: 125 :: (List.replicate j opener).flatten) := by
    simp [opener, bytes]
  have hsec : straySections (bytes "a") = some strayContent := by
    simp [straySections, mapSet]
  have hout : strayContent ++ (List.replicate j opener).flatten =
      125 :: 125 :: (List.replicate (j + 2) opener).flatten := by
    simp [strayContent, List.replicate_succ]
  rw [strayEven, sectionPass_plain straySections _ _ (closers_plain i),
    sectionPass_opener straySections _
      (Or.inr ⟨[123, 35, 97, 125] ++ 125 :: (List.replicate j opener).flatten,
        by simp [opener, bytes]⟩), hph,
    sectionPass_placeholder straySections (bytes "a") _ (by decide) (by decide), hsec]
  simp only [sectionPass_openers, hout, strayOdd]

theorem sectionPass_strayOdd (i j : Nat) :
    sectionPass straySections 0 (strayOdd i j) = (strayEven (i + 2) j, true) := by
  have hph : opener ++ 125 :: 125 :: (List.replicate j opener).flatten =
      123 :: 123 :: 35 ::
        (bytes "a" ++ 125 :: 125 :: ([125] ++ (List.replicate j opener).flatten)) := by
    simp [opener, bytes]
  have hsec : straySections (bytes "a") = some strayContent := by
    simp [straySections, mapSet]
  have htail : sectionPass straySections 0 ([125] ++ (List.replicate j opener).flatten) =
      ([125] ++ (List.replicate j opener).flatten, false) := by
    rw [sectionPass_plain straySections [125] _ (by decide), sectionPass_openers]
  have hout : List.replicate i 125 ++
      (strayContent ++ ([125] ++ (List.replicate j opener).flatten)) = strayEven (i + 2) j := by
    rw [strayEven, ← replicate_closers]
    simp [strayContent]
  rw [strayOdd, sectionPass_plain straySections _ _ (closers_plain i), hph,
    sectionPass_placeholder straySections (bytes "a") _ (by decide) (by decide), hsec]
  simp only [htail, hout]

theorem resolveSections_stray (fuel : Nat) :
    ∀ i j, resolveSections straySections fuel (strayEven i j) = none ∧
      resolveSections straySections fuel (strayOdd i j) = none := by
  induction fuel with
  | zero => intro i j; exact ⟨rfl, rfl⟩
  | succ fuel ih =>
    intro i j
    constructor
    · rw [resolveSections, sectionPass_strayEven]
      exact (ih i (j + 2)).2
    · rw [resolveSections, sectionPass_strayOdd]
      exact (ih (i + 2) j).1

/-- C18 as stated fails: `a` is the only section that is set, and its content
`}}{{#a}{{#a}` has no placeholder at all (the expression matches at no
position of it), so no section refers to a section.  On the text
`{{#a}{{#a}}` the loop never ends: each pass puts the content between bytes
that close a placeholder of `a` again. -/
theorem resolveSections_stray_never_ends :
    (∀ t ∈ strayContent.tails, sectionMatch t = none) ∧
      strayContent = bytes "\x7d\x7d\x7b\x7b#a\x7d\x7b\x7b#a\x7d" ∧
      straySections = mapSet (fun _ => none) (bytes "a") strayContent ∧
      ¬ ∃ fuel out, resolveSections straySections fuel
        (bytes "\x7b\x7b#a\x7d\x7b\x7b#a\x7d\x7d") = some out := by
  refine ⟨by decide, by decide, rfl, ?_⟩
  rintro ⟨fuel, out, h⟩
  have h0 : bytes "\x7b\x7b#a\x7d\x7b\x7b#a\x7d\x7d" = strayEven 0 0 := by decide
  rw [h0, (resolveSections_stray fuel 0 0).1] at h
  exact absurd h (by simp)

end Candy
